import Mathlib

/-!
Verification of the structural document editor in `pyvvo/app/modGLM.py`.

The document is modelled as a `List Char` (Python's `str` is an immutable
character sequence; all the code under study manipulates it by slicing and
concatenation, which map to `List.take`/`List.drop`/`++`).  Python integers
that may go negative (the brace counter, the backward-scan index) are
modelled as `Int`; all other indices are `Nat`.

The caller-supplied compiled regular expressions (`objRegEx`,
`objectRegex`) are abstracted as boolean match functions; the two concrete
regular-expression templates the module builds itself (`OBJY_BY_NAME` and
the property-extraction expression `(?<=\bNAME\b)(\s+)(.*?)(?=;)`) are
embedded concretely below, following Python `re` semantics (leftmost
search, greedy `\s+`, lazy `.*?` with `.` not matching a newline,
word-boundary `\b`); object names and property keys are taken literally
(the code interpolates them into the pattern unescaped; GridLAB-D names
consist of word characters, for which the two readings agree).
-/

/-- Python `\s` (whitespace) on the ASCII range. -/
def isSpaceChar (c : Char) : Bool :=
  c = ' ' || c = '\t' || c = '\n' || c = '\r' || c = '\x0b' || c = '\x0c'

/-- Python `\w` (word character) on the ASCII range: alphanumeric or
underscore. -/
def isWordChar (c : Char) : Bool := c.isAlphanum || c = '_'

/-- Length of the maximal run of whitespace characters at the head of a
list (what a greedy `\s*` consumes). -/
def countSpaces : List Char → Nat
  | [] => 0
  | c :: cs => if isSpaceChar c then countSpaces cs + 1 else 0

/-- `listAt s pat i`: the literal `pat` occurs in `s` starting at index
`i`. -/
def listAt (s pat : List Char) (i : Nat) : Bool :=
  decide ((s.drop i).take pat.length = pat)

/-- Word-character-ness of the character at index `i` (out of range counts
as non-word, as in Python `re`'s `\b` at the string edges). -/
def wordAt (s : List Char) (i : Nat) : Bool :=
  match s[i]? with
  | some c => isWordChar c
  | none => false

/-- Python `\b`: a word boundary holds at index `i` when the
word-character-ness of the characters at `i - 1` and `i` differ (positions
outside the string are non-word). -/
def boundaryAt (s : List Char) (i : Nat) : Bool :=
  if i = 0 then wordAt s 0 else wordAt s (i - 1) != wordAt s i

/-- `\bpat\b` occurs at index `i` of `s`. -/
def tokenAt (s pat : List Char) (i : Nat) : Bool :=
  listAt s pat i && boundaryAt s i && boundaryAt s (i + pat.length)

/-- Python `str.strip`-style trimming: drop characters satisfying `f` from
both ends. -/
def stripList (f : Char → Bool) (l : List Char) : List Char :=
  ((l.dropWhile f).reverse.dropWhile f).reverse

/-- Least index `i` with `start ≤ i < start + fuel` at which `q` holds
(the leftmost-match rule of `re.search`). -/
def findFirstIdx (q : Nat → Bool) : Nat → Nat → Option Nat
  | _, 0 => none
  | i, fuel + 1 => if q i then some i else findFirstIdx q (i + 1) fuel

/-! ## The structural Extractor: `modGLM.extractObject` (lines 921-968) -/

/-- Brace-count change contributed by one character. -/
def braceDelta (c : Char) : Int :=
  if c = '{' then 1 else if c = '}' then -1 else 0

/-- The scanning loop of `extractObject` (lines 950-963): walk the
characters after `startInd`, incrementing `endInd` for every character and
tracking `braceCount` (`+1` on `{`, `-1` on `}`, written here via
`braceDelta`); stop just after a closing brace at which the count returns
to zero, otherwise run to the end of the buffer.  Returns the final
`endInd`. -/
def extractScan : List Char → Int → Nat → Nat
  | [], _, endInd => endInd
  | c :: rest, braceCount, endInd =>
    if c = '}' ∧ braceCount + braceDelta c = 0 then endInd + 1
    else extractScan rest (braceCount + braceDelta c) (endInd + 1)

/-- The dictionary `{'start': …, 'end': …, 'obj': …}` returned by
`extractObject` (`stop` stands for the Python key `'end'`). -/
structure ObjSpan where
  start : Nat
  stop : Nat
  obj : List Char
deriving DecidableEq, Repr

/-- `modGLM.extractObject` with an explicit starting index: scan from
`startInd` and return the slice `strModel[startInd:endInd]` together with
its bounds.  The Python function never raises. -/
def extractObject (model : List Char) (startInd : Nat) : ObjSpan :=
  let endInd := extractScan (model.drop startInd) 0 startInd
  { start := startInd
    stop := endInd
    obj := (model.drop startInd).take (endInd - startInd) }

/-- Number of characters the extraction scan consumes (distance from
`startInd` to the returned `endInd`). -/
def scanLen : Int → List Char → Nat
  | _, [] => 0
  | bc, c :: rest =>
    if c = '}' ∧ bc + braceDelta c = 0 then 1
    else scanLen (bc + braceDelta c) rest + 1

/-- The scan stops at a closing brace where the count returns to zero
(rather than falling off the end of the buffer). -/
def scanBreaks : Int → List Char → Bool
  | _, [] => false
  | bc, c :: rest =>
    if c = '}' ∧ bc + braceDelta c = 0 then true
    else scanBreaks (bc + braceDelta c) rest

/-- The scan stops at a brace-count zero-crossing and the count never goes
negative on the way (the well-formed case of the extraction scan). -/
def goodScan : Int → List Char → Bool
  | _, [] => false
  | bc, c :: rest =>
    if bc + braceDelta c < 0 then false
    else if c = '}' ∧ bc + braceDelta c = 0 then true
    else goodScan (bc + braceDelta c) rest

/-- Brace depths over all prefixes of a text, starting from `d`
(`depths d cs` has `cs.length + 1` entries). -/
def depths : Int → List Char → List Int
  | d, [] => [d]
  | d, c :: cs => d :: depths (d + braceDelta c) cs

/-- Check that, after the depth has once become positive, it equals zero
only at the very last entry (which must be zero). -/
def zeroOnceAtEnd : Bool → List Int → Bool
  | _, [] => false
  | _, [d] => d == 0
  | seen, d :: d2 :: rest =>
    if seen && (d == 0) then false
    else zeroOnceAtEnd (seen || decide (0 < d)) (d2 :: rest)

/-- The balanced-span property of the spec: over the span's text the brace
depth (from 0) is non-negative at every prefix, strictly positive
somewhere, and returns to zero exactly once, at the final character. -/
def balancedSpanB (text : List Char) : Bool :=
  let ds := depths 0 text
  ds.all (fun d => decide (0 ≤ d)) && ds.any (fun d => decide (0 < d)) &&
    zeroOnceAtEnd false ds

/-! ### Basic lemmas about the extraction scan -/

theorem braceDelta_cases (c : Char) :
    braceDelta c = 1 ∨ braceDelta c = -1 ∨ braceDelta c = 0 := by
  unfold braceDelta
  by_cases h1 : c = '{'
  · simp [h1]
  · by_cases h2 : c = '}' <;> simp [h1, h2]

theorem eq_rbrace_of_braceDelta {c : Char} (h : braceDelta c = -1) :
    c = '}' := by
  by_cases h2 : c = '}'
  · exact h2
  · exfalso
    by_cases h1 : c = '{'
    · rw [h1] at h; exact absurd h (by decide)
    · unfold braceDelta at h
      rw [if_neg h1, if_neg h2] at h
      exact absurd h (by decide)

theorem extractScan_eq_scanLen (cs : List Char) :
    ∀ (bc : Int) (e : Nat), extractScan cs bc e = e + scanLen bc cs := by
  induction cs with
  | nil => intro bc e; simp [extractScan, scanLen]
  | cons c rest ih =>
    intro bc e
    simp only [extractScan, scanLen]
    by_cases h : c = '}' ∧ bc + braceDelta c = 0
    · simp only [if_pos h]
    · simp only [if_neg h, ih]
      omega

theorem scanLen_le_length (cs : List Char) :
    ∀ bc : Int, scanLen bc cs ≤ cs.length := by
  induction cs with
  | nil => intro bc; simp [scanLen]
  | cons c rest ih =>
    intro bc
    simp only [scanLen, List.length_cons]
    by_cases h : c = '}' ∧ bc + braceDelta c = 0
    · simp only [if_pos h]
      omega
    · simp only [if_neg h]
      have := ih (bc + braceDelta c)
      omega

theorem extractObject_obj (model : List Char) (s : Nat) :
    (extractObject model s).obj =
      (model.drop s).take (scanLen 0 (model.drop s)) := by
  simp [extractObject, extractScan_eq_scanLen]

theorem extractObject_start (model : List Char) (s : Nat) :
    (extractObject model s).start = s := rfl

theorem extractObject_stop (model : List Char) (s : Nat) :
    (extractObject model s).stop = s + scanLen 0 (model.drop s) := by
  simp [extractObject, extractScan_eq_scanLen]

theorem scanLen_of_not_breaks (cs : List Char) :
    ∀ bc : Int, scanBreaks bc cs = false → scanLen bc cs = cs.length := by
  induction cs with
  | nil => intro bc _; simp [scanLen]
  | cons c rest ih =>
    intro bc h
    simp only [scanBreaks] at h
    simp only [scanLen, List.length_cons]
    by_cases hb : c = '}' ∧ bc + braceDelta c = 0
    · rw [if_pos hb] at h; exact absurd h (by simp)
    · rw [if_neg hb] at h
      rw [if_neg hb, ih _ h]

theorem depths_ne_nil (d : Int) (cs : List Char) : depths d cs ≠ [] := by
  cases cs <;> simp [depths]

theorem zeroOnceAtEnd_of_pos_head (a b : Bool) (d : Int) (l : List Int)
    (hd : 0 < d) :
    zeroOnceAtEnd a (d :: l) = zeroOnceAtEnd b (d :: l) := by
  cases l with
  | nil => simp [zeroOnceAtEnd]
  | cons x xs =>
    have hne : (d == 0) = false := beq_eq_false_iff_ne.mpr (by omega)
    simp [zeroOnceAtEnd, hne, hd]

theorem depths_any_pos (b : Int) (l : List Char) (hb : 0 < b) :
    (depths b l).any (fun d => decide (0 < d)) = true := by
  cases l <;> simp [depths, hb]

theorem depths_cons_form (b : Int) (l : List Char) :
    ∃ t, depths b l = b :: t := by
  cases l <;> exact ⟨_, rfl⟩

/-- Adding one in-scan step (depth `bc` followed by the depths from `bc2`)
preserves the three balanced-span conjuncts, provided the step does not
cross zero downward. -/
theorem balanced_cons (bc bc2 : Int) (t : List Char) (hbc : 0 ≤ bc)
    (hbc2 : 0 ≤ bc2) (hcross : 0 < bc → 0 < bc2)
    (h1 : (depths bc2 t).all (fun d => decide (0 ≤ d)) = true)
    (h2 : zeroOnceAtEnd (decide (0 < bc2)) (depths bc2 t) = true)
    (h3 : 0 < bc2 ∨ (depths bc2 t).any (fun d => decide (0 < d)) = true) :
    ((bc :: depths bc2 t).all (fun d => decide (0 ≤ d)) = true)
    ∧ zeroOnceAtEnd (decide (0 < bc)) (bc :: depths bc2 t) = true
    ∧ (0 < bc ∨ (bc :: depths bc2 t).any (fun d => decide (0 < d)) = true)
    := by
  obtain ⟨t2, ht2⟩ := depths_cons_form bc2 t
  refine ⟨by simp [h1, hbc], ?_, ?_⟩
  · rw [ht2] at h2 ⊢
    have hstep : zeroOnceAtEnd (decide (0 < bc)) (bc :: bc2 :: t2) =
        zeroOnceAtEnd (decide (0 < bc)) (bc2 :: t2) := by
      have hfalse : (decide (0 < bc) && (bc == 0)) = false := by
        by_cases hb : 0 < bc
        · have : (bc == 0) = false := beq_eq_false_iff_ne.mpr (by omega)
          simp [this]
        · simp [hb]
      simp [zeroOnceAtEnd, hfalse]
    rw [hstep]
    by_cases hb : 0 < bc
    · have hb2 : 0 < bc2 := hcross hb
      simpa [hb] using (by simpa [hb2] using h2 :
        zeroOnceAtEnd true (bc2 :: t2) = true)
    · have hbz : bc = 0 := by omega
      subst hbz
      simp only [show decide ((0:Int) < 0) = false from rfl]
      by_cases hb2 : 0 < bc2
      · rw [zeroOnceAtEnd_of_pos_head false (decide (0 < bc2)) bc2 t2 hb2]
        exact h2
      · have : bc2 = 0 := by omega
        subst this
        simpa using h2
  · by_cases hb : 0 < bc
    · exact Or.inl hb
    · right
      rw [ht2] at h3 ⊢
      rcases h3 with h3 | h3
      · simp [h3]
      · simpa using Or.inr (by simpa using h3)

/-- Core invariant of the good extraction scan: the depths over the
consumed prefix stay non-negative, hit zero only at the end, and (when the
scan starts at depth 0) become positive somewhere. -/
theorem goodScan_balanced_core (cs : List Char) :
    ∀ bc : Int, 0 ≤ bc → goodScan bc cs = true →
      ((depths bc (cs.take (scanLen bc cs))).all
          (fun d => decide (0 ≤ d)) = true)
      ∧ zeroOnceAtEnd (decide (0 < bc))
          (depths bc (cs.take (scanLen bc cs))) = true
      ∧ (0 < bc ∨ (depths bc (cs.take (scanLen bc cs))).any
          (fun d => decide (0 < d)) = true) := by
  induction cs with
  | nil => intro bc _ h; simp [goodScan] at h
  | cons c rest ih =>
    intro bc hbc h
    simp only [goodScan] at h
    by_cases hneg : bc + braceDelta c < 0
    · rw [if_pos hneg] at h
      exact absurd h (by simp)
    rw [if_neg hneg] at h
    by_cases hbrk : c = '}' ∧ bc + braceDelta c = 0
    · -- the scan stops at this closing brace
      have hscan : scanLen bc (c :: rest) = 1 := by
        simp only [scanLen, if_pos hbrk]
      obtain ⟨hc, h0⟩ := hbrk
      subst hc
      have hd : braceDelta '}' = -1 := by decide
      have hbc1 : bc = 1 := by rw [hd] at h0; omega
      subst hbc1
      rw [hscan, List.take_succ_cons, List.take_zero]
      refine ⟨?_, ?_, Or.inl (by omega)⟩
      · decide
      · decide
    · rw [if_neg hbrk] at h
      have hbc2 : 0 ≤ bc + braceDelta c := by omega
      have hIH := ih (bc + braceDelta c) hbc2 h
      have hscan : scanLen bc (c :: rest) =
          scanLen (bc + braceDelta c) rest + 1 := by
        simp only [scanLen, if_neg hbrk]
      rw [hscan, List.take_succ_cons]
      have hdep : depths bc
            (c :: rest.take (scanLen (bc + braceDelta c) rest)) =
          bc :: depths (bc + braceDelta c)
            (rest.take (scanLen (bc + braceDelta c) rest)) := rfl
      rw [hdep]
      refine balanced_cons bc (bc + braceDelta c) _ hbc hbc2 ?_
        hIH.1 hIH.2.1 hIH.2.2
      intro hbpos
      rcases lt_or_eq_of_le hbc2 with hlt | heq
      · exact hlt
      · exfalso
        have hdm : braceDelta c = -1 := by
          rcases braceDelta_cases c with h1 | h1 | h1 <;> omega
        exact hbrk ⟨eq_rbrace_of_braceDelta hdm, heq.symm⟩

/-! ### Claims C1 and C2 -/

/-- The nested-containment example text of the spec:
`object house { name h1; object ZIPload { name z1; } }`. -/
def houseModel : List Char :=
  ("object house \x7b name h1; object ZIPload \x7b name z1; \x7d \x7d").toList

/-- C1 (amended).  The extractor accepts every input (it never fails), so
the balanced-span property cannot hold for all accepted inputs; it does
hold whenever the extraction scan terminates at a brace-count
zero-crossing without the count ever going negative (`goodScan`), and the
nested-containment example returns the entire text, including the nested
`ZIPload` block. -/
theorem claim_C1 :
    (∀ (model : List Char) (startInd : Nat),
        goodScan 0 (model.drop startInd) = true →
        balancedSpanB (extractObject model startInd).obj = true)
    ∧ (extractObject houseModel 0).obj = houseModel := by
  constructor
  · intro model startInd h
    obtain ⟨h1, h2, h3⟩ :=
      goodScan_balanced_core (model.drop startInd) 0 le_rfl h
    have h3' := h3.resolve_left (by omega)
    have h2' : zeroOnceAtEnd false
        (depths 0 ((model.drop startInd).take
          (scanLen 0 (model.drop startInd)))) = true := by
      simpa using h2
    rw [extractObject_obj]
    unfold balancedSpanB
    simp [h1, h2', h3']
  · decide

/-- Witness for C1: the hypothesis of the universal part is satisfiable,
e.g. by the nested-containment example itself. -/
theorem claim_C1_witness :
    goodScan 0 (houseModel.drop 0) = true ∧
    balancedSpanB (extractObject houseModel 0).obj = true :=
  ⟨by decide, claim_C1.1 houseModel 0 (by decide)⟩

/-- Counterexample to C1 as stated: the input `}{{}}` is accepted by the
extractor (the scan even stops at a brace-count zero-crossing), yet the
returned span's text `}{{}` has depth `-1` after its first character, so
the balanced-span property fails. -/
theorem claim_C1_counterexample :
    (extractObject ("\x7d\x7b\x7b\x7d\x7d".toList) 0).obj =
      "\x7d\x7b\x7b\x7d".toList
    ∧ scanBreaks 0 ("\x7d\x7b\x7b\x7d\x7d".toList) = true
    ∧ balancedSpanB ((extractObject ("\x7d\x7b\x7b\x7d\x7d".toList) 0).obj)
        = false := by
  refine ⟨by decide, by decide, by decide⟩

/-- C2 (amended).  `extractObject` never raises: when the scan reaches the
end of the buffer without the brace count ever closing back to zero, it
returns the span running from the start offset to the end of the buffer
instead of failing. -/
theorem claim_C2 (model : List Char) (s : Nat)
    (hnb : scanBreaks 0 (model.drop s) = false) (hs : s ≤ model.length) :
    (extractObject model s).stop = model.length ∧
    (extractObject model s).obj = model.drop s := by
  have hlen := scanLen_of_not_breaks (model.drop s) 0 hnb
  constructor
  · rw [extractObject_stop, hlen, List.length_drop]
    omega
  · rw [extractObject_obj, hlen, List.take_length]

/-- Witness for C2 at the truncated document `object x {`. -/
theorem claim_C2_witness :
    (extractObject ("object x \x7b".toList) 0).stop =
        ("object x \x7b".toList).length ∧
    (extractObject ("object x \x7b".toList) 0).obj =
        ("object x \x7b".toList).drop 0 :=
  claim_C2 ("object x \x7b".toList) 0 (by decide) (by decide)

/-- Counterexample to C2 as stated: on the truncated document `object x {`
the brace depth never closes, yet `extractObject` returns a span (to the
end of the buffer) instead of failing with `MalformedDocument`. -/
theorem claim_C2_counterexample :
    scanBreaks 0 ("object x \x7b".toList) = false ∧
    extractObject ("object x \x7b".toList) 0 =
      ⟨0, 10, "object x \x7b".toList⟩ := by
  refine ⟨by decide, by decide⟩

/-! ## The Type+Name Resolver: `modGLM.extractObjectByNameAndType`
(lines 878-918), built on the pattern
`OBJY_BY_NAME = r'\bname\b(\s+)("?){}("?)(\s*);'` (line 45). -/

/-- Match of the closing part `("?)(\s*);` of `OBJY_BY_NAME` at index `j`:
an optional double quote, then whitespace, then a semicolon.  Only the
maximal whitespace run can precede the `;` (a shorter backtracking choice
of the `(\s*)` leaves a whitespace character where `;` is required). -/
def quoteSpacesSemi (s : List Char) (j : Nat) : Bool :=
  (s[j + countSpaces (s.drop j)]? == some ';') ||
  ((s[j]? == some '"') &&
    (s[j + 1 + countSpaces (s.drop (j + 1))]? == some ';'))

/-- Match of `("?)NAME("?)(\s*);` at index `j`. -/
def nameValueAt (s name : List Char) (j : Nat) : Bool :=
  (listAt s name j && quoteSpacesSemi s (j + name.length)) ||
  ((s[j]? == some '"') && listAt s name (j + 1) &&
    quoteSpacesSemi s (j + 1 + name.length))

/-- Match of the full `OBJY_BY_NAME` pattern
`\bname\b(\s+)("?)NAME("?)(\s*);` starting at index `i`: a word boundary,
the literal `name`, one or more whitespace characters (backtracking of the
greedy `\s+` allows any length from 1 up to the maximal run), then the
value part.  The `\b` after `name` is implied by the whitespace that
`\s+` must match. -/
def nameStmtAt (name s : List Char) (i : Nat) : Bool :=
  boundaryAt s i && listAt s ['n', 'a', 'm', 'e'] i &&
    (List.range (countSpaces (s.drop (i + 4)))).any
      (fun k => nameValueAt s name (i + 4 + (k + 1)))

/-- The descending scan of the `while` loop (lines 905-910): try `q` at
`n`, `n - 1`, …, `0`; report the first (largest) index at which `q`
holds. -/
def backFind (q : Nat → Bool) : Nat → Option Nat
  | 0 => if q 0 then some 0 else none
  | n + 1 => if q (n + 1) then some (n + 1) else backFind q n

/-- Final value of `sInd` after the backward loop of
`extractObjectByNameAndType` started at `sInd = s`.  Python evaluates
`objRegEx.match(strModel, sInd, eInd)` with a negative `sInd` clamped to
`0`; a loop started at a negative `sInd` never enters the loop body's
guard with `sInd ≥ 0`, so it finishes with that negative value, and
otherwise the loop stops at the first matching index, falling through to
`-1` when none matches. -/
def backRes : Option Nat → Int
  | some j => (j : Int)
  | none => -1

def backLoop (q : Nat → Bool) (s : Int) : Int :=
  if s < 0 then s else backRes (backFind q s.toNat)

/-- `modGLM.extractObjectByNameAndType` (lines 878-918): find the first
`name <value>;` statement for `name` in the model, then walk backward from
its offset minus `minLength` until the object-type pattern `objRegEx`
(abstracted as `objMatchAt sInd eInd`, the truth of
`objRegEx.match(strModel, sInd, eInd)`) matches; return `none`
(`ObjNotFoundError`) when the name statement is missing or the final
backward index is negative; otherwise extract from the matched index. -/
def extractObjectByNameAndType (model name : List Char)
    (objMatchAt : Nat → Nat → Bool) (minLength : Nat) : Option ObjSpan :=
  match findFirstIdx (fun i => nameStmtAt name model i) 0 model.length with
  | none => none
  | some eInd =>
    let sInd := backLoop (fun j => objMatchAt j eInd)
      ((eInd : Int) - (minLength : Int))
    if sInd < 0 then none
    else some (extractObject model sInd.toNat)

/-! ### Lemmas about the two searches -/

theorem findFirstIdx_some {q : Nat → Bool} :
    ∀ {fuel i r : Nat}, findFirstIdx q i fuel = some r →
      q r = true ∧ i ≤ r ∧ r < i + fuel ∧
        ∀ k, i ≤ k → k < r → q k = false := by
  intro fuel
  induction fuel with
  | zero => intro i r h; simp [findFirstIdx] at h
  | succ n ih =>
    intro i r h
    simp only [findFirstIdx] at h
    by_cases hq : q i = true
    · rw [if_pos hq] at h
      injection h with h
      subst h
      exact ⟨hq, le_rfl, by omega, fun k hk1 hk2 => absurd hk1 (by omega)⟩
    · rw [if_neg hq] at h
      obtain ⟨ha, hb, hc, hd⟩ := ih h
      refine ⟨ha, by omega, by omega, ?_⟩
      intro k hk1 hk2
      rcases Nat.eq_or_lt_of_le hk1 with he | hlt
      · subst he
        simpa using hq
      · exact hd k (by omega) hk2

theorem findFirstIdx_none {q : Nat → Bool} :
    ∀ {fuel i : Nat}, findFirstIdx q i fuel = none →
      ∀ k, i ≤ k → k < i + fuel → q k = false := by
  intro fuel
  induction fuel with
  | zero => intro i _ k hk1 hk2; omega
  | succ n ih =>
    intro i h k hk1 hk2
    simp only [findFirstIdx] at h
    by_cases hq : q i = true
    · rw [if_pos hq] at h; cases h
    · rw [if_neg hq] at h
      rcases Nat.eq_or_lt_of_le hk1 with he | hlt
      · subst he; simpa using hq
      · exact ih h k (by omega) (by omega)

theorem backFind_some {q : Nat → Bool} :
    ∀ {n j : Nat}, backFind q n = some j →
      q j = true ∧ j ≤ n ∧ ∀ k, j < k → k ≤ n → q k = false := by
  intro n
  induction n with
  | zero =>
    intro j h
    simp only [backFind] at h
    by_cases hq : q 0 = true
    · rw [if_pos hq] at h
      injection h with h
      subst h
      exact ⟨hq, le_rfl, fun k hk1 hk2 => by omega⟩
    · rw [if_neg hq] at h; cases h
  | succ n ih =>
    intro j h
    simp only [backFind] at h
    by_cases hq : q (n + 1) = true
    · rw [if_pos hq] at h
      injection h with h
      subst h
      exact ⟨hq, le_rfl, fun k hk1 hk2 => by omega⟩
    · rw [if_neg hq] at h
      obtain ⟨ha, hb, hc⟩ := ih h
      refine ⟨ha, by omega, ?_⟩
      intro k hk1 hk2
      rcases Nat.eq_or_lt_of_le hk2 with he | hlt
      · subst he; simpa using hq
      · exact hc k hk1 (by omega)

theorem backFind_none {q : Nat → Bool} :
    ∀ {n : Nat}, backFind q n = none → ∀ k, k ≤ n → q k = false := by
  intro n
  induction n with
  | zero =>
    intro h k hk
    simp only [backFind] at h
    by_cases hq : q 0 = true
    · rw [if_pos hq] at h; cases h
    · rw [if_neg hq] at h
      have : k = 0 := by omega
      subst this
      simpa using hq
  | succ n ih =>
    intro h k hk
    simp only [backFind] at h
    by_cases hq : q (n + 1) = true
    · rw [if_pos hq] at h; cases h
    · rw [if_neg hq] at h
      rcases Nat.eq_or_lt_of_le hk with he | hlt
      · subst he; simpa using hq
      · exact ih h k (by omega)

theorem backLoop_neg_iff (q : Nat → Bool) (s : Int) :
    backLoop q s < 0 ↔ ∀ j : Nat, (j : Int) ≤ s → q j = false := by
  unfold backLoop
  by_cases hs : s < 0
  · rw [if_pos hs]
    constructor
    · intro _ j hj
      exfalso
      omega
    · intro _
      exact hs
  · rw [if_neg hs]
    cases hbf : backFind q s.toNat with
    | none =>
      have hall := backFind_none hbf
      simp only [backRes]
      constructor
      · intro _ j hj
        exact hall j (by omega)
      · intro _
        omega
    | some j =>
      obtain ⟨ha, hb, _⟩ := backFind_some hbf
      simp only [backRes]
      constructor
      · intro hlt
        exfalso
        omega
      · intro hall
        exfalso
        have := hall j (by omega)
        rw [ha] at this
        cases this

theorem backLoop_nonneg (q : Nat → Bool) (s : Int)
    (h : ¬ backLoop q s < 0) :
    ∃ j : Nat, backLoop q s = (j : Int) ∧ q j = true ∧ (j : Int) ≤ s ∧
      ∀ j2 : Nat, j < j2 → (j2 : Int) ≤ s → q j2 = false := by
  unfold backLoop at h ⊢
  by_cases hs : s < 0
  · rw [if_pos hs] at h
    exact absurd hs h
  · rw [if_neg hs] at h ⊢
    cases hbf : backFind q s.toNat with
    | none =>
      rw [hbf] at h
      simp only [backRes] at h
      exact absurd (by omega) h
    | some j =>
      obtain ⟨ha, hb, hc⟩ := backFind_some hbf
      refine ⟨j, by simp only [backRes], ha, by omega, ?_⟩
      intro j2 hj1 hj2
      exact hc j2 hj1 (by omega)

theorem nameStmt_false_of_ge (name s : List Char) (i : Nat)
    (h : s.length ≤ i) : nameStmtAt name s i = false := by
  unfold nameStmtAt
  have hl : listAt s ['n', 'a', 'm', 'e'] i = false := by
    unfold listAt
    rw [List.drop_eq_nil_of_le h]
    simp
  simp [hl]

/-- C3 (confirmed): the resolver resolves against the first (leftmost)
`name <value>;` statement in document order, raises `ObjNotFoundError`
(`none`) exactly when no name statement exists or the backward scan
exhausts all offsets from the name statement's offset minus `minLength`
down to `0` without a type-pattern match, and otherwise returns the object
extracted from the first backward offset (the largest one not exceeding
the name statement's offset minus `minLength`) at which the type pattern
matches. -/
theorem claim_C3 (model name : List Char) (objMatchAt : Nat → Nat → Bool)
    (minLength : Nat) :
    (extractObjectByNameAndType model name objMatchAt minLength = none ↔
      (∀ i, nameStmtAt name model i = false) ∨
      (∃ eInd, nameStmtAt name model eInd = true ∧
        (∀ i, i < eInd → nameStmtAt name model i = false) ∧
        (∀ j : Nat, (j : Int) ≤ (eInd : Int) - (minLength : Int) →
          objMatchAt j eInd = false)))
    ∧ (∀ span, extractObjectByNameAndType model name objMatchAt minLength
          = some span →
        ∃ eInd j : Nat,
          nameStmtAt name model eInd = true ∧
          (∀ i, i < eInd → nameStmtAt name model i = false) ∧
          (j : Int) ≤ (eInd : Int) - (minLength : Int) ∧
          objMatchAt j eInd = true ∧
          (∀ j2 : Nat, j < j2 →
            (j2 : Int) ≤ (eInd : Int) - (minLength : Int) →
            objMatchAt j2 eInd = false) ∧
          span = extractObject model j) := by
  cases hfind : findFirstIdx (fun i => nameStmtAt name model i) 0
      model.length with
  | none =>
    have hnone : ∀ i, nameStmtAt name model i = false := by
      intro i
      by_cases hi : i < model.length
      · exact findFirstIdx_none hfind i (by omega) (by omega)
      · exact nameStmt_false_of_ge name model i (by omega)
    constructor
    · simp only [extractObjectByNameAndType, hfind]
      exact ⟨fun _ => Or.inl hnone, fun _ => trivial⟩
    · intro span hsp
      simp only [extractObjectByNameAndType, hfind] at hsp
      cases hsp
  | some eInd =>
    obtain ⟨hq, _, _, hleast0⟩ := findFirstIdx_some hfind
    have hq' : nameStmtAt name model eInd = true := hq
    have hleast : ∀ i, i < eInd → nameStmtAt name model i = false :=
      fun i hi => hleast0 i (by omega) hi
    have huniq : ∀ e2, nameStmtAt name model e2 = true →
        (∀ i, i < e2 → nameStmtAt name model i = false) → e2 = eInd := by
      intro e2 h2 hl2
      by_contra hne
      rcases Nat.lt_or_ge e2 eInd with hlt | hge
      · exact absurd h2 (by rw [hleast e2 hlt]; simp)
      · have hlt2 : eInd < e2 := by omega
        exact absurd hq' (by rw [hl2 eInd hlt2]; simp)
    simp only [extractObjectByNameAndType, hfind]
    by_cases hneg : backLoop (fun j => objMatchAt j eInd)
        ((eInd : Int) - (minLength : Int)) < 0
    · rw [if_pos hneg]
      have hnomatch := (backLoop_neg_iff _ _).1 hneg
      constructor
      · exact ⟨fun _ => Or.inr ⟨eInd, hq', hleast, hnomatch⟩, fun _ => rfl⟩
      · intro span hsp
        cases hsp
    · rw [if_neg hneg]
      obtain ⟨j, hj, hqj, hjle, hjmax⟩ := backLoop_nonneg _ _ hneg
      constructor
      · constructor
        · intro habs
          cases habs
        · rintro (hall | ⟨e2, h2, hl2, hnm⟩)
          · exact absurd hq' (by rw [hall eInd]; simp)
          · have he : e2 = eInd := huniq e2 h2 hl2
            subst he
            exact absurd hqj (by rw [hnm j hjle]; simp)
      · intro span hsp
        injection hsp with hsp
        refine ⟨eInd, j, hq', hleast, hjle, hqj, hjmax, ?_⟩
        rw [← hsp, hj]
        simp

/-- A document with two objects carrying the same `name n1;` statement:
the resolver must pick the first, the `house`. -/
def dupModel : List Char :=
  ("object house \x7bname n1;\x7d object meter \x7bname n1;\x7d").toList

/-- Abstraction of a compiled `object house` type pattern over `dupModel`:
the literal occurs at `j` and fits inside the end position. -/
def dupObjMatch (j e : Nat) : Bool :=
  listAt dupModel ("object house").toList j && decide (j + 12 ≤ e)

/-- Witness for C3 on the duplicate-name document: the resolver returns
the object of the *first* `name n1;` occurrence (the `house` object
extracted from offset 0). -/
theorem claim_C3_witness :
    ∃ eInd j : Nat,
      nameStmtAt ("n1").toList dupModel eInd = true ∧
      (∀ i, i < eInd → nameStmtAt ("n1").toList dupModel i = false) ∧
      (j : Int) ≤ (eInd : Int) - ((1 : Nat) : Int) ∧
      dupObjMatch j eInd = true ∧
      (∀ j2 : Nat, j < j2 → (j2 : Int) ≤ (eInd : Int) - ((1 : Nat) : Int) →
        dupObjMatch j2 eInd = false) ∧
      some (extractObject dupModel 0) =
        extractObjectByNameAndType dupModel ("n1").toList dupObjMatch 1 :=
  by
  obtain ⟨eInd, j, h1, h2, h3, h4, h5, h6⟩ :=
    (claim_C3 dupModel ("n1").toList dupObjMatch 1).2
      (extractObject dupModel 0) (by decide)
  exact ⟨eInd, j, h1, h2, h3, h4, h5, by decide⟩

/-! ## The Property Accessor: `modGLM.extractProperties` (lines 970-1002),
pattern `(?<=\bPROP\b)(\s+)(.*?)(?=;)` (line 988). -/

/-- Scan for the first `';'` at or after absolute index `j` (the list
argument is the suffix of the buffer from `j`): the lazy `(.*?)` expands
one character at a time, `.` never matches a newline, so the search fails
at the first `'\n'` or at the end of the buffer. -/
def semiScan : List Char → Nat → Option Nat
  | [], _ => none
  | c :: cs, j =>
    if c = ';' then some j
    else if c = '\n' then none
    else semiScan cs (j + 1)

/-- Match of the property pattern `(?<=\bPROP\b)(\s+)(.*?)(?=;)` whose
span starts at `q` (the start of the `(\s+)` group): the look-behind
`\bPROP\b` must end exactly at `q`, at least one whitespace character must
follow, and a `';'` must be reachable from the end of the maximal
whitespace run without crossing a newline.  (Only the maximal run decides:
a shorter backtracking choice of the greedy `\s+` merely prepends
whitespace — never a `';'` — to the `(.*?)` region, so it reaches a `';'`
only when the maximal run does, and the first `';'` found is the same.)
Returns the end of the span: the index of the `';'`, which the look-ahead
excludes from the match. -/
def propSemiAt (s p : List Char) (q : Nat) : Option Nat :=
  if p.length ≤ q ∧ listAt s p (q - p.length) = true ∧
      boundaryAt s (q - p.length) = true ∧ boundaryAt s q = true ∧
      1 ≤ countSpaces (s.drop q) then
    semiScan (s.drop (q + countSpaces (s.drop q)))
      (q + countSpaces (s.drop q))
  else none

/-- The dictionary entry `{'prop': …, 'start': …, 'end': …}` built by
`extractProperties` for one property (`stop` stands for the Python key
`'end'`; `prop` is the caller-visible value text). -/
structure PropMatch where
  prop : List Char
  start : Nat
  stop : Nat
deriving DecidableEq, Repr

/-- One property lookup of `extractProperties` (lines 985-1000):
`re.search` of the property pattern (leftmost match), then the group text
`objString[start:end]` stripped of surrounding whitespace and then of
surrounding double quotes. -/
def extractProp (objString p : List Char) : Option PropMatch :=
  match findFirstIdx (fun q => (propSemiAt objString p q).isSome) 0
      (objString.length + 1) with
  | none => none
  | some q =>
    match propSemiAt objString p q with
    | some t =>
      some { prop := stripList (fun c => c = '"')
               (stripList isSpaceChar ((objString.drop q).take (t - q)))
             start := q
             stop := t }
    | none => none

/-- `modGLM.extractProperties` (lines 970-1002): look the requested
properties up in order; the Python `raise PropNotInObjError` at the first
missing property aborts the whole call (modelled by `Except.error` with
the missing property's name), discarding entries already gathered. -/
def extractProperties (objString : List Char) :
    List (List Char) → Except (List Char) (List (List Char × PropMatch))
  | [] => .ok []
  | p :: rest =>
    match extractProp objString p with
    | none => .error p
    | some pm =>
      match extractProperties objString rest with
      | .error e => .error e
      | .ok l => .ok ((p, pm) :: l)

/-! ### Lemmas about property matching -/

theorem semiScan_some (l : List Char) :
    ∀ j t : Nat, semiScan l j = some t →
      j ≤ t ∧ t - j < l.length ∧ l[t - j]? = some ';' := by
  induction l with
  | nil => intro j t h; simp [semiScan] at h
  | cons c cs ih =>
    intro j t h
    simp only [semiScan] at h
    by_cases h1 : c = ';'
    · rw [if_pos h1] at h
      injection h with h
      subst h
      refine ⟨le_rfl, by simp, ?_⟩
      simp [h1]
    · rw [if_neg h1] at h
      by_cases h2 : c = '\n'
      · rw [if_pos h2] at h; cases h
      · rw [if_neg h2] at h
        obtain ⟨ha, hb, hc⟩ := ih (j + 1) t h
        refine ⟨by omega, by simp; omega, ?_⟩
        have ht : t - j = (t - (j + 1)) + 1 := by omega
        rw [ht]
        simpa using hc

theorem semiScan_abs (s : List Char) (m t : Nat)
    (h : semiScan (s.drop m) m = some t) :
    m ≤ t ∧ t < s.length ∧ s[t]? = some ';' := by
  obtain ⟨ha, hb, hc⟩ := semiScan_some (s.drop m) m t h
  rw [List.length_drop] at hb
  refine ⟨ha, by omega, ?_⟩
  rw [List.getElem?_drop] at hc
  rwa [show m + (t - m) = t by omega] at hc

/-- Every successful `extractProp` arises from a leftmost match of the
property pattern; this unpacks all the structural facts of that match. -/
theorem extractProp_some_spec (obj p : List Char) (pm : PropMatch)
    (h : extractProp obj p = some pm) :
    p.length ≤ pm.start ∧
    listAt obj p (pm.start - p.length) = true ∧
    boundaryAt obj (pm.start - p.length) = true ∧
    boundaryAt obj pm.start = true ∧
    1 ≤ countSpaces (obj.drop pm.start) ∧
    semiScan (obj.drop (pm.start + countSpaces (obj.drop pm.start)))
      (pm.start + countSpaces (obj.drop pm.start)) = some pm.stop ∧
    pm.prop = stripList (fun c => c = '"')
      (stripList isSpaceChar
        ((obj.drop pm.start).take (pm.stop - pm.start))) ∧
    (∀ q2, q2 < pm.start → propSemiAt obj p q2 = none) := by
  unfold extractProp at h
  cases hfind : findFirstIdx (fun q => (propSemiAt obj p q).isSome) 0
      (obj.length + 1) with
  | none => simp only [hfind] at h; cases h
  | some q =>
    simp only [hfind] at h
    obtain ⟨hq, _, _, hleast0⟩ := findFirstIdx_some hfind
    cases hsemi : propSemiAt obj p q with
    | none => simp only [hsemi] at h; cases h
    | some t =>
      simp only [hsemi] at h
      injection h with h
      have hstart : pm.start = q := by rw [← h]
      have hstop : pm.stop = t := by rw [← h]
      have hprop : pm.prop = stripList (fun c => c = '"')
          (stripList isSpaceChar ((obj.drop q).take (t - q))) := by
        rw [← h]
      unfold propSemiAt at hsemi
      by_cases hcond : p.length ≤ q ∧ listAt obj p (q - p.length) = true ∧
          boundaryAt obj (q - p.length) = true ∧ boundaryAt obj q = true ∧
          1 ≤ countSpaces (obj.drop q)
      · rw [if_pos hcond] at hsemi
        obtain ⟨hc1, hc2, hc3, hc4, hc5⟩ := hcond
        subst hstart
        subst hstop
        refine ⟨hc1, hc2, hc3, hc4, hc5, hsemi, hprop, ?_⟩
        intro q2 hq2
        have hfalse := hleast0 q2 (by omega) hq2
        cases hval : propSemiAt obj p q2 with
        | none => rfl
        | some t2 => rw [hval] at hfalse; cases hfalse
      · rw [if_neg hcond] at hsemi
        cases hsemi

/-- The keeper of a successful property lookup: the slice immediately
before the span is the property's name, and the character at the span's
end is the `';'` separator. -/
theorem extractProp_structure (obj p : List Char) (pm : PropMatch)
    (h : extractProp obj p = some pm) :
    p.length ≤ pm.start ∧ pm.start < pm.stop ∧ pm.stop < obj.length ∧
    (obj.drop (pm.start - p.length)).take p.length = p ∧
    obj[pm.stop]? = some ';' := by
  obtain ⟨h1, h2, _, _, h5, h6, _, _⟩ := extractProp_some_spec obj p pm h
  obtain ⟨ha, hb, hc⟩ := semiScan_abs obj _ pm.stop h6
  refine ⟨h1, by omega, hb, ?_, hc⟩
  unfold listAt at h2
  exact of_decide_eq_true h2

/-! ### Claims C4 and C5 -/

deriving instance DecidableEq for Except

/-- C4 (amended): one `extractProperties` call is fail-fast, not
per-property.  It returns `PropNotInObjError` carrying the *first* missing
requested name in request order, aborting the whole call: names after the
missing one are not resolved and results gathered before it are
discarded; when no requested name is missing, every requested name maps to
its (independent) lookup result. -/
theorem claim_C4 (obj : List Char) (props : List (List Char)) :
    (∀ e, extractProperties obj props = .error e →
      ∃ l1 l2, props = l1 ++ e :: l2 ∧ extractProp obj e = none ∧
        ∀ p ∈ l1, (extractProp obj p).isSome = true)
    ∧ (∀ m, extractProperties obj props = .ok m →
        ∀ p ∈ props, ∃ pm, (p, pm) ∈ m ∧ extractProp obj p = some pm) := by
  induction props with
  | nil =>
    constructor
    · intro e he
      simp [extractProperties] at he
    · intro m _ p hp
      simp at hp
  | cons p rest ih =>
    cases hp : extractProp obj p with
    | none =>
      constructor
      · intro e he
        simp only [extractProperties, hp] at he
        injection he with he
        subst he
        exact ⟨[], rest, rfl, hp, by simp⟩
      · intro m hm
        simp only [extractProperties, hp] at hm
        exact Except.noConfusion hm
    | some pm =>
      cases hrest : extractProperties obj rest with
      | error e2 =>
        constructor
        · intro e he
          simp only [extractProperties, hp, hrest] at he
          injection he with he
          subst he
          obtain ⟨l1, l2, hsplit, hmiss, hall⟩ := ih.1 e2 hrest
          refine ⟨p :: l1, l2, by rw [hsplit]; rfl, hmiss, ?_⟩
          intro pp hpp
          rcases List.mem_cons.mp hpp with heq | hmem
          · subst heq
            rw [hp]
            rfl
          · exact hall pp hmem
        · intro m hm
          simp only [extractProperties, hp, hrest] at hm
          exact Except.noConfusion hm
      | ok l =>
        constructor
        · intro e he
          simp only [extractProperties, hp, hrest] at he
          exact Except.noConfusion he
        · intro m hm
          simp only [extractProperties, hp, hrest] at hm
          injection hm with hm
          subst hm
          intro pp hpp
          rcases List.mem_cons.mp hpp with heq | hmem
          · subst heq
            exact ⟨pm, List.mem_cons_self _ _, hp⟩
          · obtain ⟨pm2, hmem2, hval⟩ := ih.2 l hrest pp hmem
            exact ⟨pm2, List.mem_cons_of_mem _ hmem2, hval⟩

/-- The spec's append-on-missing capacitor object (with its trailing
newline), used by several claims. -/
def capObjNl : List Char :=
  ("object capacitor \x7b\n name cap1;\n\x7d\n").toList

/-- Counterexample to C4 as stated: requesting `[switchA, name]` on a
capacitor object that has a `name` but no `switchA` makes the whole call
fail with `PropNotInObjError(switchA)` — the present `name` is *not*
resolved by the call, so the operation is not per-property. -/
theorem claim_C4_counterexample :
    extractProperties capObjNl [("switchA").toList, ("name").toList] =
      .error (("switchA").toList)
    ∧ (extractProp capObjNl (("name").toList)).isSome = true :=
  ⟨by decide, by decide⟩

/-- Witness for C4 on the capacitor object: the missing `switchA` is the
first missing name of the request `[switchA, name]`. -/
theorem claim_C4_witness :
    ∃ l1 l2, [("switchA").toList, ("name").toList] =
        l1 ++ ("switchA").toList :: l2 ∧
      extractProp capObjNl (("switchA").toList) = none ∧
      ∀ p ∈ l1, (extractProp capObjNl p).isSome = true :=
  (claim_C4 capObjNl [("switchA").toList, ("name").toList]).1
    (("switchA").toList) (by decide)

/-- Decomposition of the replace-branch splice: replacing the matched span
with a single space and a value yields the text with the untouched prefix,
the property's name, the new value and the preserved `';'` made
explicit. -/
theorem replaceSpan_decomp (obj p v : List Char) (pm : PropMatch)
    (h : extractProp obj p = some pm) :
    obj.take pm.start ++ (' ' :: v) ++ obj.drop pm.stop =
      obj.take (pm.start - p.length) ++ p ++ (' ' :: v) ++
        (';' :: obj.drop (pm.stop + 1)) := by
  obtain ⟨h1, h2, h3, h4, h5⟩ := extractProp_structure obj p pm h
  obtain ⟨a, ha⟩ : ∃ a, pm.start = a + p.length := ⟨pm.start - p.length, by omega⟩
  have ha' : pm.start - p.length = a := by omega
  rw [ha'] at h4 ⊢
  rw [ha]
  rw [List.take_add, h4]
  have hdrop : obj.drop pm.stop = ';' :: obj.drop (pm.stop + 1) := by
    have hget := List.getElem?_eq_getElem h3
    rw [h5] at hget
    injection hget with hget
    rw [List.drop_eq_getElem_cons h3, hget]
  rw [hdrop]

/-- C5 (amended): a successful property lookup's local offsets
`start..stop` cover exactly the whitespace and raw value *between* the
property's name and its terminating `';'` — the name ends exactly at
`start` and the `';'` sits exactly at `stop`, excluded — so replacing that
span with a single space plus the new value (which is what `modObjProps`
does) reproduces a well-formed `name value;` statement; the
caller-visible value is the raw matched text with surrounding whitespace
stripped and then *all* surrounding double-quote characters stripped,
while the offsets refer to the raw unstripped text. -/
theorem claim_C5 (obj p v : List Char) (pm : PropMatch)
    (h : extractProp obj p = some pm) :
    p.length ≤ pm.start ∧ pm.start < pm.stop ∧ pm.stop < obj.length ∧
    (obj.drop (pm.start - p.length)).take p.length = p ∧
    obj[pm.stop]? = some ';' ∧
    pm.prop = stripList (fun c => c = '"')
      (stripList isSpaceChar ((obj.drop pm.start).take (pm.stop - pm.start)))
    ∧ obj.take pm.start ++ (' ' :: v) ++ obj.drop pm.stop =
        obj.take (pm.start - p.length) ++ p ++ (' ' :: v) ++
          (';' :: obj.drop (pm.stop + 1)) := by
  obtain ⟨h1, h2, h3, h4, h5⟩ := extractProp_structure obj p pm h
  obtain ⟨_, _, _, _, _, _, hvalue, _⟩ := extractProp_some_spec obj p pm h
  exact ⟨h1, h2, h3, h4, h5, hvalue, replaceSpan_decomp obj p v pm h⟩

/-- The spec's replace-existing regulator object (with its trailing
newline). -/
def regObjNl : List Char :=
  ("object regulator \x7b\n name reg1;\n tap_A 5;\n\x7d\n").toList

/-- Witness for C5 on the regulator object's `tap_A` property: the span
is `(37, 39)` covering `' 5'`, the name `tap_A` ends at 37, the `';'`
sits at 39. -/
theorem claim_C5_witness :
    ("tap_A").toList.length ≤ 37 ∧ 37 < 39 ∧ 39 < regObjNl.length ∧
    (regObjNl.drop (37 - ("tap_A").toList.length)).take
        ("tap_A").toList.length = ("tap_A").toList ∧
    regObjNl[39]? = some ';' ∧
    ("5").toList = stripList (fun c => c = '"')
      (stripList isSpaceChar ((regObjNl.drop 37).take (39 - 37)))
    ∧ regObjNl.take 37 ++ (' ' :: ("10").toList) ++ regObjNl.drop 39 =
        regObjNl.take (37 - ("tap_A").toList.length) ++ ("tap_A").toList ++
          (' ' :: ("10").toList) ++ (';' :: regObjNl.drop (39 + 1)) :=
  claim_C5 regObjNl (("tap_A").toList) (("10").toList)
    ⟨("5").toList, 37, 39⟩ (by decide)

/-- Counterexample to C5 as stated: on `tap_A 5;` the returned local span
is `(5, 7)`, covering only the whitespace-plus-value `' 5'` — it includes
neither the property name (indices 0-4) nor the terminating `';'` (index
7), so the span does not cover "the property's name through its
terminating statement separator"; and on `x ""v"";` the caller-visible
value is `v`, i.e. *both* layers of enclosing quotes are stripped, not
exactly one. -/
theorem claim_C5_counterexample :
    extractProp (("tap_A 5;").toList) (("tap_A").toList) =
      some ⟨("5").toList, 5, 7⟩
    ∧ extractProp (("x \x22\x22v\x22\x22;").toList) (("x").toList) =
      some ⟨("v").toList, 1, 7⟩ :=
  ⟨by decide, by decide⟩

/-! ## The Property Mutator: `modGLM.modObjProps` (lines 858-876) and the
splice primitive `modGLM.replaceObject` (lines 846-856). -/

/-- The final character of the object string, as the one-element list that
Python's `objStr[-1]` denotes.  (On an empty string Python would raise
`IndexError`; the callers never pass one, and the model returns `[]`.) -/
def lastChar (s : List Char) : List Char :=
  match s.getLast? with
  | some c => [c]
  | none => []

/-- `modGLM.modObjProps` (lines 858-876): for each `(prop, value)` pair in
the dictionary's insertion order, try `extractProperties(objStr, [prop])`
(a one-element request, i.e. a single `extractProp`); on
`PropNotInObjError` append the new statement just before the final
character (`objStr[0:-1] + "  " + prop + " " + str(value) + ";\n" +
objStr[-1]`); otherwise replace the matched span with a single space and
the value (`objStr[0:propVal[prop]['start']] + " " + str(value) +
objStr[propVal[prop]['end']:]`). -/
def modObjProps (objStr : List Char) :
    List (List Char × List Char) → List Char
  | [] => objStr
  | (prop, value) :: rest =>
    let objStr2 :=
      match extractProp objStr prop with
      | none =>
        objStr.dropLast ++ (' ' :: ' ' :: prop) ++ (' ' :: value) ++
          (';' :: '\n' :: []) ++ lastChar objStr
      | some pm =>
        objStr.take pm.start ++ (' ' :: value) ++ objStr.drop pm.stop
    modObjProps objStr2 rest

/-- `modGLM.replaceObject` (lines 846-856): splice the (possibly
modified) object text of a span back into the model,
`strModel[0:start] + obj + strModel[end:]`. -/
def replaceObject (model : List Char) (d : ObjSpan) : List Char :=
  model.take d.start ++ d.obj ++ model.drop d.stop

/-! ### Claims C10 and C6 -/

theorem getLast?_drop_of_lt (l : List Char) (n : Nat) (h : n < l.length) :
    (l.drop n).getLast? = l.getLast? := by
  rw [List.getLast?_eq_getElem?, List.getLast?_eq_getElem?,
    List.length_drop, List.getElem?_drop]
  congr 1
  omega

/-- Both branches of `modObjProps` preserve a final closing brace. -/
theorem modObjProps_step_lastBrace (obj p v : List Char)
    (h : obj.getLast? = some '}') :
    (match extractProp obj p with
      | none =>
        obj.dropLast ++ (' ' :: ' ' :: p) ++ (' ' :: v) ++
          (';' :: '\n' :: []) ++ lastChar obj
      | some pm =>
        obj.take pm.start ++ (' ' :: v) ++ obj.drop pm.stop).getLast? =
      some '}' := by
  cases hp : extractProp obj p with
  | none =>
    have hl : lastChar obj = ['}'] := by
      unfold lastChar
      rw [h]
    rw [hl]
    rw [List.getLast?_append_of_ne_nil _ (by simp)]
    rfl
  | some pm =>
    have h3 := (extractProp_structure obj p pm hp).2.2.1
    have hne : obj.drop pm.stop ≠ [] := by
      intro habs
      have := congrArg List.length habs
      rw [List.length_drop] at this
      simp at this
      omega
    rw [List.append_assoc]
    rw [List.getLast?_append_of_ne_nil _ (by simp [hne])]
    exact (getLast?_drop_of_lt obj pm.stop h3).trans h

/-- C10 (confirmed): for every object string ending in `'}'` and every
property list, `modObjProps` returns a string still ending in `'}'`: the
replace branch edits only up to the `';'` strictly before the final brace
and the append branch inserts strictly before the final character, so
every property write keeps the object splice-able for `replaceObject`. -/
theorem claim_C10 (props : List (List Char × List Char)) :
    ∀ obj : List Char, obj.getLast? = some '}' →
      (modObjProps obj props).getLast? = some '}' := by
  induction props with
  | nil =>
    intro obj h
    simpa [modObjProps] using h
  | cons pv rest ih =>
    intro obj h
    obtain ⟨p, v⟩ := pv
    simp only [modObjProps]
    exact ih _ (modObjProps_step_lastBrace obj p v h)

/-- Witness for C10: setting `switchA` on the brace-terminated capacitor
object yields a string still ending in `'}'`. -/
theorem claim_C10_witness :
    (modObjProps (("object capacitor \x7b\n name cap1;\n\x7d").toList)
      [(("switchA").toList, ("CLOSED").toList)]).getLast? = some '}' :=
  claim_C10 [(("switchA").toList, ("CLOSED").toList)]
    (("object capacitor \x7b\n name cap1;\n\x7d").toList) (by decide)

/-- The append-on-missing capacitor object as `extractObject` would
produce it: ending exactly at its closing brace. -/
def capObj : List Char := ("object capacitor \x7b\n name cap1;\n\x7d").toList

/-- C6 (amended): `setProperties` (`modObjProps`) processes the pairs in
insertion order.  A present key's span (the whitespace-and-value between
the key and its `';'`) is replaced by a single space plus the new value,
preserving the key text and the `';'` exactly — concretely, setting
`tap_A` to `10` on the regulator object leaves its `name` statement
unchanged.  An absent key's new `key value;` statement is inserted
immediately before the object text's *final character*: that character is
the final closing brace exactly when the object text ends at its brace
(as `extractObject` outputs do) — concretely shown on the
brace-terminated capacitor — and in both cases a subsequent
`extractProperties` for the key returns the new value. -/
theorem claim_C6 :
    (∀ (obj p v : List Char) (pm : PropMatch),
      extractProp obj p = some pm →
      modObjProps obj [(p, v)] =
        obj.take (pm.start - p.length) ++ p ++ (' ' :: v) ++
          (';' :: obj.drop (pm.stop + 1)))
    ∧ (∀ obj p v : List Char,
      extractProp obj p = none → obj.getLast? = some '}' →
      modObjProps obj [(p, v)] =
        obj.dropLast ++ (' ' :: ' ' :: p) ++ (' ' :: v) ++
          (';' :: '\n' :: []) ++ ['}'])
    ∧ modObjProps regObjNl [(("tap_A").toList, ("10").toList)] =
        ("object regulator \x7b\n name reg1;\n tap_A 10;\n\x7d\n").toList
    ∧ extractProp (modObjProps regObjNl [(("tap_A").toList, ("10").toList)])
        (("name").toList) = extractProp regObjNl (("name").toList)
    ∧ (extractProp (modObjProps regObjNl
        [(("tap_A").toList, ("10").toList)]) (("tap_A").toList)).map
          PropMatch.prop = some (("10").toList)
    ∧ modObjProps capObj [(("switchA").toList, ("CLOSED").toList)] =
        ("object capacitor \x7b\n name cap1;\n  switchA CLOSED;\n\x7d").toList
    ∧ (extractProp (modObjProps capObj
        [(("switchA").toList, ("CLOSED").toList)])
          (("switchA").toList)).map PropMatch.prop =
        some (("CLOSED").toList) := by
  refine ⟨?_, ?_, by decide, by decide, by decide, by decide, by decide⟩
  · intro obj p v pm hp
    simp only [modObjProps, hp]
    exact replaceSpan_decomp obj p v pm hp
  · intro obj p v hp hlast
    simp only [modObjProps, hp]
    have hl : lastChar obj = ['}'] := by
      unfold lastChar
      rw [hlast]
    rw [hl]

/-- Witness for C6's universally quantified parts, instantiated at the
regulator replace and at the brace-terminated capacitor append. -/
theorem claim_C6_witness :
    modObjProps regObjNl [(("tap_A").toList, ("10").toList)] =
      regObjNl.take (37 - ("tap_A").toList.length) ++ ("tap_A").toList ++
        (' ' :: ("10").toList) ++ (';' :: regObjNl.drop (39 + 1))
    ∧ modObjProps capObj [(("switchA").toList, ("CLOSED").toList)] =
      capObj.dropLast ++ (' ' :: ' ' :: ("switchA").toList) ++
        (' ' :: ("CLOSED").toList) ++ (';' :: '\n' :: []) ++ ['}'] :=
  ⟨claim_C6.1 regObjNl (("tap_A").toList) (("10").toList)
      ⟨("5").toList, 37, 39⟩ (by decide),
    claim_C6.2.1 capObj (("switchA").toList) (("CLOSED").toList)
      (by decide) (by decide)⟩

/-- The text `modObjProps` produces from `capObjNl` (the capacitor object
with its trailing newline) when asked to set `switchA`. -/
def capAfter : List Char :=
  ("object capacitor \x7b\n name cap1;\n\x7d  switchA CLOSED;\n\n").toList

/-- Counterexample to C6 as stated: on the spec's own append-on-missing
example text `object capacitor {\n name cap1;\n}\n` (which ends with a
newline after the brace), the new statement is inserted before the final
*newline*, i.e. *after* the object's final closing brace: the result has
exactly one `'}'`, at index 31, and everything from it onward is
`}  switchA CLOSED;\n\n`. -/
theorem claim_C6_counterexample :
    modObjProps capObjNl [(("switchA").toList, ("CLOSED").toList)] =
      capAfter
    ∧ (capAfter.filter (fun c => c = '}')).length = 1
    ∧ capAfter.drop 31 = ("\x7d  switchA CLOSED;\n\n").toList :=
  ⟨by decide, by decide, by decide⟩

/-! ### Claim C7: idempotence of the property set.
Support: the head condition of a property match, and how matching behaves
on a text that shares a prefix with the original. -/

/-- The part of the property pattern that only looks at the text up to the
whitespace after the key: the look-behind `\bPROP\b` ending at `q` plus at
least one whitespace character at `q`. -/
def propHeadAt (s p : List Char) (q : Nat) : Bool :=
  decide (p.length ≤ q) && listAt s p (q - p.length) &&
    boundaryAt s (q - p.length) && boundaryAt s q &&
    decide (1 ≤ countSpaces (s.drop q))

theorem propSemiAt_eq_head (s p : List Char) (q : Nat) :
    propSemiAt s p q =
      if propHeadAt s p q = true then
        semiScan (s.drop (q + countSpaces (s.drop q)))
          (q + countSpaces (s.drop q))
      else none := by
  unfold propSemiAt
  by_cases h : p.length ≤ q ∧ listAt s p (q - p.length) = true ∧
      boundaryAt s (q - p.length) = true ∧ boundaryAt s q = true ∧
      1 ≤ countSpaces (s.drop q)
  · rw [if_pos h, if_pos]
    unfold propHeadAt
    simp [h.1, h.2.1, h.2.2.1, h.2.2.2.1, h.2.2.2.2]
  · rw [if_neg h, if_neg]
    intro hb
    unfold propHeadAt at hb
    simp only [Bool.and_eq_true, decide_eq_true_eq] at hb
    exact h ⟨hb.1.1.1.1, hb.1.1.1.2, hb.1.1.2, hb.1.2, hb.2⟩

theorem findFirstIdx_eq_some_of {q : Nat → Bool} :
    ∀ (fuel i r : Nat), i ≤ r → r < i + fuel → q r = true →
      (∀ k, i ≤ k → k < r → q k = false) →
      findFirstIdx q i fuel = some r := by
  intro fuel
  induction fuel with
  | zero => intro i r h1 h2; omega
  | succ n ih =>
    intro i r h1 h2 h3 h4
    simp only [findFirstIdx]
    rcases Nat.eq_or_lt_of_le h1 with he | hlt
    · subst he
      rw [if_pos h3]
    · rw [if_neg (by rw [h4 i le_rfl hlt]; simp)]
      exact ih (i + 1) r (by omega) (by omega) h3 (fun k hk1 hk2 => h4 k (by omega) hk2)

theorem countSpaces_le_length (l : List Char) : countSpaces l ≤ l.length := by
  induction l with
  | nil => simp [countSpaces]
  | cons c cs ih =>
    simp only [countSpaces, List.length_cons]
    by_cases h : isSpaceChar c = true
    · rw [if_pos h]; omega
    · rw [if_neg h]; omega

theorem countSpaces_append_nonspace (a b : List Char) (c : Char)
    (hc : isSpaceChar c = false) :
    countSpaces (a ++ c :: b) = countSpaces a := by
  induction a with
  | nil => simp [countSpaces, hc]
  | cons x xs ih =>
    rw [List.cons_append]
    show (if isSpaceChar x = true then countSpaces (xs ++ c :: b) + 1
        else 0) =
      (if isSpaceChar x = true then countSpaces xs + 1 else 0)
    rw [ih]

theorem semiScan_clean (w : List Char) :
    ∀ (b : List Char) (j : Nat), (∀ c ∈ w, c ≠ ';' ∧ c ≠ '\n') →
      semiScan (w ++ ';' :: b) j = some (j + w.length) := by
  induction w with
  | nil => intro b j _; simp [semiScan]
  | cons x xs ih =>
    intro b j hw
    obtain ⟨hx1, hx2⟩ := hw x (by simp)
    rw [List.cons_append]
    show (if x = ';' then some j
        else if x = '\n' then none
        else semiScan (xs ++ ';' :: b) (j + 1)) = some (j + (x :: xs).length)
    rw [if_neg hx1, if_neg hx2, ih b (j + 1) (fun c hc => hw c (by simp [hc]))]
    congr 1
    simp
    omega

theorem countSpaces_pos_iff_head (l : List Char) :
    (1 ≤ countSpaces l) ↔
      (match l.head? with
        | some c => isSpaceChar c
        | none => false) = true := by
  cases l with
  | nil => simp [countSpaces]
  | cons c cs =>
    simp only [countSpaces, List.head?_cons]
    by_cases h : isSpaceChar c = true
    · rw [if_pos h]
      constructor
      · intro _; exact h
      · intro _; omega
    · rw [if_neg h]
      constructor
      · intro habs; omega
      · intro habs; rw [habs] at h; exact absurd rfl h

/-! #### Transfer of match components along a common prefix -/

theorem getElem?_eq_of_take_eq (s1 s2 : List Char) (n i : Nat)
    (h : s1.take n = s2.take n) (hi : i < n) : s1[i]? = s2[i]? := by
  have h1 : (s1.take n)[i]? = s1[i]? := by
    rw [List.getElem?_take]
    exact if_pos hi
  have h2 : (s2.take n)[i]? = s2[i]? := by
    rw [List.getElem?_take]
    exact if_pos hi
  rw [← h1, ← h2, h]

theorem wordAt_eq_of_take_eq (s1 s2 : List Char) (n i : Nat)
    (h : s1.take n = s2.take n) (hi : i < n) : wordAt s1 i = wordAt s2 i := by
  unfold wordAt
  rw [getElem?_eq_of_take_eq s1 s2 n i h hi]

theorem boundaryAt_eq_of_take_eq (s1 s2 : List Char) (n i : Nat)
    (h : s1.take n = s2.take n) (hi : i < n) :
    boundaryAt s1 i = boundaryAt s2 i := by
  unfold boundaryAt
  by_cases h0 : i = 0
  · rw [if_pos h0, if_pos h0, wordAt_eq_of_take_eq s1 s2 n 0 h (by omega)]
  · rw [if_neg h0, if_neg h0,
      wordAt_eq_of_take_eq s1 s2 n (i - 1) h (by omega),
      wordAt_eq_of_take_eq s1 s2 n i h hi]

theorem slice_eq_of_take_eq (s1 s2 : List Char) (n a m : Nat)
    (h : s1.take n = s2.take n) (hm : a + m ≤ n) :
    (s1.drop a).take m = (s2.drop a).take m := by
  have key : ∀ s : List Char, (s.drop a).take m = ((s.take n).drop a).take m := by
    intro s
    rw [List.drop_take]
    rw [List.take_take]
    congr 1
    omega
  rw [key s1, key s2, h]

theorem listAt_eq_of_take_eq (s1 s2 p : List Char) (n a : Nat)
    (h : s1.take n = s2.take n) (hm : a + p.length ≤ n) :
    listAt s1 p a = listAt s2 p a := by
  unfold listAt
  rw [slice_eq_of_take_eq s1 s2 n a p.length h hm]

theorem spacesHead_eq_of_take_eq (s1 s2 : List Char) (n i : Nat)
    (h : s1.take n = s2.take n) (hi : i < n) :
    (decide (1 ≤ countSpaces (s1.drop i))) =
      (decide (1 ≤ countSpaces (s2.drop i))) := by
  have h1 := countSpaces_pos_iff_head (s1.drop i)
  have h2 := countSpaces_pos_iff_head (s2.drop i)
  have hh : (s1.drop i).head? = (s2.drop i).head? := by
    rw [List.head?_drop, List.head?_drop,
      getElem?_eq_of_take_eq s1 s2 n i h hi]
  rw [hh] at h1
  by_cases hc : 1 ≤ countSpaces (s2.drop i)
  · simp [hc, h1.mpr (h2.mp hc)]
  · have hc1 : ¬ 1 ≤ countSpaces (s1.drop i) := fun habs => hc (h2.mpr (h1.mp habs))
    simp [hc, hc1]

theorem propHeadAt_eq_of_take_eq (s1 s2 p : List Char) (n q : Nat)
    (h : s1.take n = s2.take n) (hq : q < n) :
    propHeadAt s1 p q = propHeadAt s2 p q := by
  unfold propHeadAt
  by_cases hpl : p.length ≤ q
  · rw [listAt_eq_of_take_eq s1 s2 p n (q - p.length) h (by omega),
      boundaryAt_eq_of_take_eq s1 s2 n (q - p.length) h (by omega),
      boundaryAt_eq_of_take_eq s1 s2 n q h hq,
      spacesHead_eq_of_take_eq s1 s2 n q h hq]
  · simp [hpl]

theorem wordAt_true_of (s : List Char) (i : Nat) (c : Char)
    (h : s[i]? = some c) (hc : isWordChar c = true) : wordAt s i = true := by
  simp [wordAt, h, hc]

theorem wordAt_false_of (s : List Char) (i : Nat) (c : Char)
    (h : s[i]? = some c) (hc : isWordChar c = false) : wordAt s i = false := by
  simp [wordAt, h, hc]

theorem lt_length_of_getElem? (l : List Char) (i : Nat) (c : Char)
    (h : l[i]? = some c) : i < l.length := by
  by_contra hx
  rw [List.getElem?_eq_none (by omega)] at h
  cases h

theorem drop_eq_semi_cons (obj : List Char) (t : Nat)
    (h3 : t < obj.length) (h5 : obj[t]? = some ';') :
    obj.drop t = ';' :: obj.drop (t + 1) := by
  have hget := List.getElem?_eq_getElem h3
  rw [h5] at hget
  injection hget with hget
  rw [List.drop_eq_getElem_cons h3, hget]

/-- After the replace branch rewrites the matched span with `' ' :: v`,
the property pattern matches leftmost at the same start again, the span
now covering exactly `' ' :: v` (the new value must be free of `';'` and
newlines, the key must be a nonempty word-character token, and no earlier
position of the original text may carry the key token followed by
whitespace). -/
theorem extractProp_replace (obj p v : List Char) (pm : PropMatch)
    (hp : p ≠ []) (hpw : ∀ c ∈ p, isWordChar c = true)
    (hv : ∀ c ∈ v, c ≠ ';' ∧ c ≠ '\n')
    (hsome : extractProp obj p = some pm)
    (hhead : ∀ q2, q2 < pm.start → propHeadAt obj p q2 = false) :
    extractProp (obj.take pm.start ++ (' ' :: v) ++ obj.drop pm.stop) p =
      some ⟨stripList (fun c => c = '"') (stripList isSpaceChar (' ' :: v)),
        pm.start, pm.start + 1 + v.length⟩ := by
  obtain ⟨h1, h2, h3, h4, h5, h6, _, _⟩ := extractProp_some_spec obj p pm hsome
  obtain ⟨_, hs2, hs3, hs4, hs5⟩ := extractProp_structure obj p pm hsome
  have hplen : 1 ≤ p.length := List.length_pos.mpr hp
  set q := pm.start with hqdef
  set t := pm.stop with htdef
  have hqlen : q < obj.length := by omega
  have hAlen : (obj.take q).length = q := by
    rw [List.length_take]
    omega
  set T := obj.take q ++ (' ' :: v) ++ obj.drop t with hT
  have hassoc : T = obj.take q ++ ((' ' :: v) ++ obj.drop t) := by
    rw [hT, List.append_assoc]
  have htakeT : T.take q = obj.take q := by
    rw [hassoc, List.take_left' hAlen]
  have hdropT : T.drop q = ' ' :: (v ++ obj.drop t) := by
    rw [hassoc, List.drop_left' hAlen, List.cons_append]
  have hsemi_cons : obj.drop t = ';' :: obj.drop (t + 1) :=
    drop_eq_semi_cons obj t hs3 hs5
  have hdropT2 : T.drop q = ' ' :: (v ++ (';' :: obj.drop (t + 1))) := by
    rw [hdropT, hsemi_cons]
  -- the components of the head condition at `q` in the new text
  have hlist : listAt T p (q - p.length) = true := by
    rw [listAt_eq_of_take_eq T obj p q (q - p.length) htakeT (by omega)]
    exact h2
  have hbound1 : boundaryAt T (q - p.length) = true := by
    rw [boundaryAt_eq_of_take_eq T obj q (q - p.length) htakeT (by omega)]
    exact h3
  have hword_prev : wordAt obj (q - 1) = true := by
    have hgp : obj[q - 1]? = p[p.length - 1]? := by
      have hpt := congrArg (fun l => l[p.length - 1]?) hs4
      simp only at hpt
      rw [List.getElem?_take, if_pos (by omega), List.getElem?_drop] at hpt
      rw [← hpt]
      congr 1
      omega
    have hplt : p.length - 1 < p.length := by omega
    have hc := List.getElem?_eq_getElem hplt
    have hcm : p[p.length - 1] ∈ p := List.getElem_mem _
    exact wordAt_true_of obj (q - 1) _ (hgp.trans hc) (hpw _ hcm)
  have hTq : T[q]? = some ' ' := by
    rw [hassoc, List.getElem?_append_right (by omega),
      show q - (obj.take q).length = 0 by omega]
    simp
  have hboundq : boundaryAt T q = true := by
    unfold boundaryAt
    rw [if_neg (show ¬ q = 0 by omega)]
    rw [wordAt_eq_of_take_eq T obj q (q - 1) htakeT (by omega), hword_prev,
      wordAt_false_of T q ' ' hTq (by decide)]
    rfl
  have hcs : ∀ l : List Char, countSpaces (' ' :: l) = countSpaces l + 1 := by
    intro l
    show (if isSpaceChar ' ' = true then countSpaces l + 1 else 0) = _
    rw [if_pos (by decide)]
  have hrun : countSpaces (T.drop q) = 1 + countSpaces v := by
    rw [hdropT2, hcs, countSpaces_append_nonspace v _ ';' (by decide)]
    omega
  have hsp : 1 ≤ countSpaces (T.drop q) := by
    rw [hrun]
    omega
  have hheadq : propHeadAt T p q = true := by
    unfold propHeadAt
    simp [h1, hlist, hbound1, hboundq, hsp]
  set kv := countSpaces v with hkvdef
  have hkv : kv ≤ v.length := countSpaces_le_length v
  have hdrop2 : T.drop (q + (1 + kv)) =
      v.drop kv ++ (';' :: obj.drop (t + 1)) := by
    rw [← List.drop_drop, hdropT2,
      show (1 : Nat) + kv = kv + 1 by omega, List.drop_succ_cons,
      List.drop_append_eq_append_drop,
      show kv - v.length = 0 by omega, List.drop_zero]
  have hscan : semiScan (T.drop (q + (1 + kv))) (q + (1 + kv)) =
      some (q + 1 + v.length) := by
    rw [hdrop2,
      semiScan_clean (v.drop kv) _ _
        (fun c hc => hv c (List.drop_subset kv v hc))]
    congr 1
    rw [List.length_drop]
    omega
  have hsemiq : propSemiAt T p q = some (q + 1 + v.length) := by
    rw [propSemiAt_eq_head, if_pos hheadq, hrun]
    exact hscan
  have hleft : ∀ q2, q2 < q → propSemiAt T p q2 = none := by
    intro q2 hq2
    rw [propSemiAt_eq_head,
      propHeadAt_eq_of_take_eq T obj p q q2 htakeT hq2, hhead q2 hq2]
    simp
  have hqT : q < T.length := lt_length_of_getElem? T q ' ' hTq
  have hff : findFirstIdx (fun q2 => (propSemiAt T p q2).isSome) 0
      (T.length + 1) = some q := by
    apply findFirstIdx_eq_some_of (T.length + 1) 0 q (by omega) (by omega)
    · rw [hsemiq]
      rfl
    · intro k _ hk
      rw [hleft k hk]
      rfl
  have hslice : (T.drop q).take (q + 1 + v.length - q) = ' ' :: v := by
    rw [show q + 1 + v.length - q = v.length + 1 by omega, hdropT2,
      List.take_succ_cons, List.take_left]
  unfold extractProp
  simp only [hff, hsemiq, hslice]

theorem getElem?_append_left' (l1 l2 : List Char) (i : Nat)
    (h : i < l1.length) : (l1 ++ l2)[i]? = l1[i]? := by
  rw [List.getElem?_append]
  exact if_pos h

theorem listAt_getElem (s p : List Char) (a j : Nat)
    (h : listAt s p a = true) (hj : j < p.length) : s[a + j]? = p[j]? := by
  unfold listAt at h
  have hs := of_decide_eq_true h
  have hpt := congrArg (fun l => l[j]?) hs
  simp only at hpt
  rw [List.getElem?_take, if_pos hj, List.getElem?_drop] at hpt
  exact hpt

/-- After the append branch adds `"  p v;\n"` just before the final
(non-word) character `z`, the property pattern matches leftmost at the
inserted statement, provided the key token occurs nowhere in the original
text `D ++ [z]`. -/
theorem extractProp_append (D p v : List Char) (z : Char)
    (hp : p ≠ []) (hpw : ∀ c ∈ p, isWordChar c = true)
    (hv : ∀ c ∈ v, c ≠ ';' ∧ c ≠ '\n')
    (hz : isWordChar z = false)
    (htok : ∀ a, tokenAt (D ++ [z]) p a = false) :
    extractProp
        (D ++ (' ' :: ' ' :: p) ++ (' ' :: v) ++ (';' :: '\n' :: []) ++ [z])
        p =
      some ⟨stripList (fun c => c = '"') (stripList isSpaceChar (' ' :: v)),
        D.length + 2 + p.length, D.length + 2 + p.length + 1 + v.length⟩
    := by
  have hplen : 1 ≤ p.length := List.length_pos.mpr hp
  set T := D ++ (' ' :: ' ' :: p) ++ (' ' :: v) ++ (';' :: '\n' :: []) ++ [z]
    with hT
  set Y := p ++ (' ' :: (v ++ (';' :: '\n' :: [z]))) with hY
  have hTeq : T = D ++ (' ' :: ' ' :: Y) := by
    rw [hT, hY]
    simp
  set q := D.length + 2 + p.length with hqdef
  have hTget : ∀ i, T[D.length + i]? = (' ' :: ' ' :: Y)[i]? := by
    intro i
    rw [hTeq, List.getElem?_append_right (by omega)]
    congr 1
    omega
  have hgetD0 : T[D.length]? = some ' ' := by
    have := hTget 0
    simpa using this
  have hgetD1 : T[D.length + 1]? = some ' ' := by
    have := hTget 1
    simpa using this
  have hgetP : ∀ j, j < p.length → T[D.length + 2 + j]? = p[j]? := by
    intro j hj
    have h0 := hTget (2 + j)
    rw [show (2 : Nat) + j = (j + 1) + 1 by omega] at h0
    rw [List.getElem?_cons_succ, List.getElem?_cons_succ] at h0
    rw [show D.length + 2 + j = D.length + (j + 1 + 1) by omega, h0, hY,
      getElem?_append_left' p _ j hj]
  have hgetq : T[q]? = some ' ' := by
    have h0 := hTget (2 + p.length)
    rw [show (2 : Nat) + p.length = (p.length + 1) + 1 by omega] at h0
    rw [List.getElem?_cons_succ, List.getElem?_cons_succ] at h0
    rw [show q = D.length + (p.length + 1 + 1) by omega, h0, hY,
      List.getElem?_append_right (by omega),
      show p.length - p.length = 0 by omega]
    simp
  have hdropD2 : T.drop (D.length + 2) = Y := by
    rw [hTeq, show D.length + 2 = D.length + (1 + 1) by omega,
      List.drop_append, List.drop_succ_cons, List.drop_succ_cons,
      List.drop_zero]
  have hdropq : T.drop q = ' ' :: (v ++ (';' :: '\n' :: [z])) := by
    rw [show q = (D.length + 2) + p.length by omega, ← List.drop_drop,
      hdropD2, hY, List.drop_left' rfl]
  -- head condition at the inserted statement
  have hlist : listAt T p (q - p.length) = true := by
    unfold listAt
    rw [show q - p.length = D.length + 2 by omega, hdropD2, hY,
      List.take_left' rfl]
    simp
  have hbound1 : boundaryAt T (q - p.length) = true := by
    unfold boundaryAt
    rw [if_neg (by omega)]
    have hw1 : wordAt T (q - p.length - 1) = false := by
      apply wordAt_false_of T _ ' '
      · rw [show q - p.length - 1 = D.length + 1 by omega]
        exact hgetD1
      · decide
    obtain ⟨c0, cs0, hpc⟩ : ∃ c0 cs0, p = c0 :: cs0 := by
      cases p with
      | nil => exact absurd rfl hp
      | cons c cs => exact ⟨c, cs, rfl⟩
    have hw2 : wordAt T (q - p.length) = true := by
      apply wordAt_true_of T _ c0
      · rw [show q - p.length = D.length + 2 + 0 by omega,
          hgetP 0 (by omega), hpc]
        simp
      · exact hpw c0 (by rw [hpc]; simp)
    rw [hw1, hw2]
    rfl
  have hboundq : boundaryAt T q = true := by
    unfold boundaryAt
    rw [if_neg (by omega)]
    have hw1 : wordAt T (q - 1) = true := by
      have hplt2 : p.length - 1 < p.length := by omega
      have hc := List.getElem?_eq_getElem hplt2
      apply wordAt_true_of T _ (p[p.length - 1])
      · rw [show q - 1 = D.length + 2 + (p.length - 1) by omega,
          hgetP (p.length - 1) (by omega)]
        exact hc
      · exact hpw _ (List.getElem_mem _)
    have hw2 : wordAt T q = false := wordAt_false_of T q ' ' hgetq (by decide)
    rw [hw1, hw2]
    rfl
  have hcs : ∀ l : List Char, countSpaces (' ' :: l) = countSpaces l + 1 := by
    intro l
    show (if isSpaceChar ' ' = true then countSpaces l + 1 else 0) = _
    rw [if_pos (by decide)]
  have hrun : countSpaces (T.drop q) = 1 + countSpaces v := by
    rw [hdropq, hcs, countSpaces_append_nonspace v _ ';' (by decide)]
    omega
  have hsp : 1 ≤ countSpaces (T.drop q) := by
    rw [hrun]
    omega
  have hheadq : propHeadAt T p q = true := by
    unfold propHeadAt
    simp [show p.length ≤ q by omega, hlist, hbound1, hboundq, hsp]
  set kv := countSpaces v with hkvdef
  have hkv : kv ≤ v.length := countSpaces_le_length v
  have hdrop2 : T.drop (q + (1 + kv)) =
      v.drop kv ++ (';' :: '\n' :: [z]) := by
    rw [← List.drop_drop, hdropq,
      show (1 : Nat) + kv = kv + 1 by omega, List.drop_succ_cons,
      List.drop_append_eq_append_drop,
      show kv - v.length = 0 by omega, List.drop_zero]
  have hscan : semiScan (T.drop (q + (1 + kv))) (q + (1 + kv)) =
      some (q + 1 + v.length) := by
    rw [hdrop2,
      semiScan_clean (v.drop kv) _ _
        (fun c hc => hv c (List.drop_subset kv v hc))]
    congr 1
    rw [List.length_drop]
    omega
  have hsemiq : propSemiAt T p q = some (q + 1 + v.length) := by
    rw [propSemiAt_eq_head, if_pos hheadq, hrun]
    exact hscan
  -- no earlier position can carry the head condition
  have htakeD : T.take D.length = (D ++ [z]).take D.length := by
    rw [hTeq, List.take_left' rfl, List.take_left' rfl]
  have hleft : ∀ q2, q2 < q → propHeadAt T p q2 = false := by
    intro q2 hq2
    by_contra hpos
    have hhd : propHeadAt T p q2 = true := by
      cases hx : propHeadAt T p q2 with
      | true => rfl
      | false => exact absurd hx hpos
    unfold propHeadAt at hhd
    simp only [Bool.and_eq_true, decide_eq_true_eq] at hhd
    obtain ⟨⟨⟨⟨hg1, hg2⟩, hg3⟩, hg4⟩, _⟩ := hhd
    set a := q2 - p.length with hadef
    have hq2a : q2 = a + p.length := by omega
    -- the key token cannot overlap the two inserted spaces
    have hle : a + p.length ≤ D.length := by
      by_contra hgt
      have hcases : a ≤ D.length + 1 := by omega
      rcases Nat.lt_or_ge a (D.length + 1) with hlt | hge
      · -- the slice covers index D.length, which holds ' '
        have hj : D.length - a < p.length := by omega
        have := listAt_getElem T p a (D.length - a) hg2 hj
        rw [show a + (D.length - a) = D.length + 0 by omega] at this
        rw [show (D.length + 0) = D.length by omega, hgetD0] at this
        have hmem : ' ' ∈ p := List.getElem?_mem this.symm
        have := hpw ' ' hmem
        exact absurd this (by decide)
      · -- a = D.length + 1: the slice starts at the second space
        have ha2 : a = D.length + 1 := by omega
        have := listAt_getElem T p a 0 hg2 (by omega)
        rw [show a + 0 = D.length + 1 by omega, hgetD1] at this
        have hmem : ' ' ∈ p := List.getElem?_mem this.symm
        have := hpw ' ' hmem
        exact absurd this (by decide)
    -- transfer the token into the original text
    have htok2 : tokenAt (D ++ [z]) p a = true := by
      unfold tokenAt
      have hl : listAt (D ++ [z]) p a = true := by
        rw [← listAt_eq_of_take_eq T (D ++ [z]) p D.length a htakeD hle]
        exact hg2
      have hba : boundaryAt (D ++ [z]) a = true := by
        rw [← boundaryAt_eq_of_take_eq T (D ++ [z]) D.length a htakeD
          (by omega)]
        exact hg3
      have hbb : boundaryAt (D ++ [z]) (a + p.length) = true := by
        rcases Nat.lt_or_ge (a + p.length) D.length with hlt | hge
        · rw [← boundaryAt_eq_of_take_eq T (D ++ [z]) D.length
            (a + p.length) htakeD hlt]
          rw [hq2a] at hg4
          exact hg4
        · have heq : a + p.length = D.length := by omega
          unfold boundaryAt
          rw [if_neg (by omega)]
          have hwp : wordAt (D ++ [z]) (a + p.length - 1) =
              wordAt T (a + p.length - 1) := by
            rw [wordAt_eq_of_take_eq T (D ++ [z]) D.length _ htakeD
              (by omega)]
          have hwz : wordAt (D ++ [z]) (a + p.length) = false := by
            apply wordAt_false_of _ _ z _ hz
            rw [heq, List.getElem?_append_right (by omega),
              show D.length - D.length = 0 by omega]
            simp
          have hwT : wordAt T (a + p.length) = false := by
            apply wordAt_false_of _ _ ' ' _ (by decide)
            rw [heq]
            exact hgetD0
          rw [hwp, hwz]
          rw [hq2a] at hg4
          unfold boundaryAt at hg4
          rw [if_neg (by omega)] at hg4
          rw [hwT] at hg4
          exact hg4
      rw [hl, hba, hbb]
      rfl
    rw [htok a] at htok2
    cases htok2
  have hqT : q < T.length := lt_length_of_getElem? T q ' ' hgetq
  have hff : findFirstIdx (fun q2 => (propSemiAt T p q2).isSome) 0
      (T.length + 1) = some q := by
    apply findFirstIdx_eq_some_of (T.length + 1) 0 q (by omega) (by omega)
    · rw [hsemiq]
      rfl
    · intro k _ hk
      rw [propSemiAt_eq_head, hleft k hk]
      simp
  have hslice : (T.drop q).take (q + 1 + v.length - q) = ' ' :: v := by
    rw [show q + 1 + v.length - q = v.length + 1 by omega, hdropq,
      List.take_succ_cons, List.take_left]
  unfold extractProp
  simp only [hff, hsemiq, hslice]

/-- C7 (amended): `setProperties` is *not* idempotent in general (see the
counterexample), but it is for a single-entry map `{p: v}` when the key is
a nonempty word-character token, the value contains no `';'` and no
newline, the object text is nonempty and ends in a non-word character
(such as the closing brace), and the key token is tame: when the key is
present, no earlier position carries the key token followed by
whitespace; when the key is absent, the key token occurs nowhere. -/
theorem claim_C7 (obj p v : List Char)
    (hp : p ≠ []) (hpw : ∀ c ∈ p, isWordChar c = true)
    (hv : ∀ c ∈ v, c ≠ ';' ∧ c ≠ '\n')
    (hobj : obj ≠ [])
    (hlast : ∀ c, obj.getLast? = some c → isWordChar c = false)
    (hsome : ∀ pm, extractProp obj p = some pm →
      ∀ q2, q2 < pm.start → propHeadAt obj p q2 = false)
    (hnone : extractProp obj p = none → ∀ a, tokenAt obj p a = false) :
    modObjProps (modObjProps obj [(p, v)]) [(p, v)] =
      modObjProps obj [(p, v)] := by
  cases hcase : extractProp obj p with
  | some pm =>
    obtain ⟨h1, _, _, _, _, _, _, _⟩ := extractProp_some_spec obj p pm hcase
    obtain ⟨_, hs2, hs3, _, _⟩ := extractProp_structure obj p pm hcase
    have hrep := extractProp_replace obj p v pm hp hpw hv hcase
      (hsome pm hcase)
    simp only [modObjProps, hcase, hrep]
    have hAlen : (obj.take pm.start).length = pm.start := by
      rw [List.length_take]
      omega
    set T := obj.take pm.start ++ (' ' :: v) ++ obj.drop pm.stop with hT
    have hassoc : T = obj.take pm.start ++
        ((' ' :: v) ++ obj.drop pm.stop) := by
      rw [hT, List.append_assoc]
    have htake : T.take pm.start = obj.take pm.start := by
      rw [hassoc, List.take_left' hAlen]
    have hdrop : T.drop (pm.start + 1 + v.length) = obj.drop pm.stop := by
      rw [hassoc,
        show pm.start + 1 + v.length =
          (obj.take pm.start).length + (1 + v.length) by omega,
        List.drop_append,
        List.drop_left' (show (' ' :: v).length = 1 + v.length by simp; omega)]
    rw [htake, hdrop]
  | none =>
    have hgl : obj.getLast? = some (obj.getLast hobj) :=
      List.getLast?_eq_getLast obj hobj
    set z := obj.getLast hobj with hzdef
    have hlz : lastChar obj = [z] := by
      unfold lastChar
      rw [hgl]
    have hDz : obj.dropLast ++ [z] = obj := List.dropLast_append_getLast hobj
    have happ := extractProp_append obj.dropLast p v z hp hpw hv
      (hlast z hgl) (by rw [hDz]; exact hnone hcase)
    simp only [modObjProps, hcase, hlz, happ]
    set D := obj.dropLast with hDdef
    set q := D.length + 2 + p.length with hqdef
    set T := D ++ (' ' :: ' ' :: p) ++ (' ' :: v) ++ (';' :: '\n' :: []) ++
      [z] with hT
    have hassoc : T = (D ++ (' ' :: ' ' :: p)) ++
        ((' ' :: v) ++ ((';' :: '\n' :: []) ++ [z])) := by
      rw [hT]
      simp [List.append_assoc]
    have hBlen : (D ++ (' ' :: ' ' :: p)).length = q := by
      simp [hqdef]
      omega
    have htake : T.take q = D ++ (' ' :: ' ' :: p) := by
      rw [hassoc, List.take_left' hBlen]
    have hdrop : T.drop (q + 1 + v.length) = (';' :: '\n' :: []) ++ [z] := by
      rw [hassoc,
        show q + 1 + v.length =
          (D ++ (' ' :: ' ' :: p)).length + (1 + v.length) by
            rw [hBlen]
            omega,
        List.drop_append,
        List.drop_left' (show (' ' :: v).length = 1 + v.length by
          simp; omega)]
    rw [htake, hdrop, hT]
    simp [List.append_assoc]

/-- Counterexample to C7 as stated: with a value containing a `';'`, the
second application re-reads only up to the first `';'` and duplicates the
remainder — `setProperties` applied twice differs from once already on the
two-character object `{}` with map `{p: 1;2}`. -/
theorem claim_C7_counterexample :
    modObjProps (modObjProps (("\x7b\x7d").toList)
        [(("p").toList, ("1;2").toList)])
      [(("p").toList, ("1;2").toList)] ≠
      modObjProps (("\x7b\x7d").toList) [(("p").toList, ("1;2").toList)] :=
  by decide

/-- Witness for C7 on the regulator object: setting `tap_A` to `10` twice
equals setting it once. -/
theorem claim_C7_witness :
    modObjProps (modObjProps regObjNl [(("tap_A").toList, ("10").toList)])
        [(("tap_A").toList, ("10").toList)] =
      modObjProps regObjNl [(("tap_A").toList, ("10").toList)] := by
  apply claim_C7
  · decide
  · decide
  · decide
  · decide
  · intro c hc
    rw [show regObjNl.getLast? = some '\n' from by decide] at hc
    injection hc with hc
    subst hc
    decide
  · intro pm hpm
    rw [show extractProp regObjNl (("tap_A").toList) =
        some ⟨("5").toList, 37, 39⟩ from by decide] at hpm
    injection hpm with hpm
    subst hpm
    intro q2 hq2
    revert q2
    decide
  · intro habs
    rw [show extractProp regObjNl (("tap_A").toList) =
        some ⟨("5").toList, 37, 39⟩ from by decide] at habs
    cases habs

/-! ## Iteration with mutation: `modGLM.addGroupToObjects`
(lines 608-652). -/

/-- Leftmost match of the abstract object-type pattern in `s` at or after
`pos` (the semantics of `objectRegex.search(s, pos)`): the least `i ≥ pos`
with `typeAt s i`.  Object-type patterns never match the empty string, so
positions at or beyond the end of the buffer are excluded. -/
def searchFrom (typeAt : List Char → Nat → Bool) (s : List Char)
    (pos : Nat) : Option Nat :=
  findFirstIdx (fun i => typeAt s i) pos (s.length - pos)

theorem searchFrom_some {typeAt : List Char → Nat → Bool}
    {s : List Char} {pos i : Nat} (h : searchFrom typeAt s pos = some i) :
    typeAt s i = true ∧ pos ≤ i ∧ i < s.length := by
  obtain ⟨h1, h2, h3, _⟩ := findFirstIdx_some h
  have hfuel : s.length - pos ≠ 0 := by
    intro h0
    unfold searchFrom at h
    rw [h0] at h
    simp [findFirstIdx] at h
  exact ⟨h1, h2, by omega⟩

theorem scanLen_pos (bc : Int) (cs : List Char) (h : cs ≠ []) :
    1 ≤ scanLen bc cs := by
  cases cs with
  | nil => exact absurd rfl h
  | cons c rest =>
    simp only [scanLen]
    by_cases hb : c = '}' ∧ bc + braceDelta c = 0
    · rw [if_pos hb]
    · rw [if_neg hb]
      omega

theorem extractObject_obj_length (s : List Char) (i : Nat)
    (h : i < s.length) :
    (extractObject s i).obj.length = scanLen 0 (s.drop i) ∧
    1 ≤ (extractObject s i).obj.length ∧
    (extractObject s i).stop = i + (extractObject s i).obj.length ∧
    (extractObject s i).stop ≤ s.length := by
  have hdne : s.drop i ≠ [] := by
    intro habs
    have := congrArg List.length habs
    rw [List.length_drop] at this
    simp at this
    omega
  have hlen : (extractObject s i).obj.length = scanLen 0 (s.drop i) := by
    rw [extractObject_obj, List.length_take, List.length_drop]
    have := scanLen_le_length (s.drop i) 0
    rw [List.length_drop] at this
    omega
  refine ⟨hlen, ?_, ?_, ?_⟩
  · rw [hlen]
    exact scanLen_pos 0 (s.drop i) hdne
  · rw [extractObject_stop, hlen]
  · rw [extractObject_stop]
    have := scanLen_le_length (s.drop i) 0
    rw [List.length_drop] at this
    omega

theorem modObjProps_single_ne_nil (obj p v : List Char) :
    modObjProps obj [(p, v)] ≠ [] := by
  simp only [modObjProps]
  cases hp : extractProp obj p <;> simp

/-- The `groupid` key added by `addGroupToObjects`. -/
def groupidKey : List Char := ("groupid").toList

/-- The loop of `addGroupToObjects` (lines 622-652), instrumented with a
trace: each processed match contributes
`(matchStart, usedLength, nextSearchStart)`, where `usedLength` is the
length of the new object text after a transform (the Python code
reassigns `obj['obj']` before computing the next offset) or of the
original object text after a name-filter skip, and
`nextSearchStart = matchStart + usedLength` is where the next `re.search`
begins.  `none` models the uncaught `PropNotInObjError` raised when a
name filter is present and a matched object has no `name` property.  The
text component follows the source loop exactly; the trace is ghost
instrumentation. -/
def addGroupLoop (typeAt : List Char → Nat → Bool) (groupName : List Char) :
    Option (List (List Char)) → List Char → Nat →
      Option (List Char × List (Nat × Nat × Nat))
  | nameListC, s, pos =>
    match hm : searchFrom typeAt s pos with
    | none => some (s, [])
    | some i =>
      let span := extractObject s i
      match nameListC with
      | some nl =>
        match extractProp span.obj (['n', 'a', 'm', 'e']) with
        | none => none
        | some nm =>
          if nm.prop ∈ nl then
            let obj2 := modObjProps span.obj [(groupidKey, groupName)]
            let s2 := replaceObject s ⟨span.start, span.stop, obj2⟩
            match addGroupLoop typeAt groupName (some (nl.erase nm.prop))
                s2 (i + obj2.length) with
            | none => none
            | some (s3, tr) =>
              some (s3, (i, obj2.length, i + obj2.length) :: tr)
          else
            match addGroupLoop typeAt groupName (some nl) s
                (i + span.obj.length) with
            | none => none
            | some (s3, tr) =>
              some (s3, (i, span.obj.length, i + span.obj.length) :: tr)
      | none =>
        let obj2 := modObjProps span.obj [(groupidKey, groupName)]
        let s2 := replaceObject s ⟨span.start, span.stop, obj2⟩
        match addGroupLoop typeAt groupName none s2 (i + obj2.length) with
        | none => none
        | some (s3, tr) =>
          some (s3, (i, obj2.length, i + obj2.length) :: tr)
termination_by nameListC s pos => s.length - pos
decreasing_by
  all_goals
    obtain ⟨hta, hpos, hlt⟩ := searchFrom_some hm
    obtain ⟨hl1, hl2, hl3, hl4⟩ := extractObject_obj_length s i hlt
    first
      | (simp only [replaceObject, extractObject_start, List.length_append,
          List.length_take, List.length_drop]
         omega)
      | omega

/-- `modGLM.addGroupToObjects`: run the loop from offset `0` on a copy of
the name list, returning the final model text (and the ghost trace). -/
def addGroupToObjects (typeAt : List Char → Nat → Bool)
    (groupName : List Char) (nameList : Option (List (List Char)))
    (model : List Char) : Option (List Char × List (Nat × Nat × Nat)) :=
  addGroupLoop typeAt groupName nameList model 0

/-- Well-formedness of the ghost trace: each visited match starts at or
after the current search position, uses a positive length, and the next
search position is exactly `start + length`. -/
def chainOK : Nat → List (Nat × Nat × Nat) → Prop
  | _, [] => True
  | pos, e :: tr => pos ≤ e.1 ∧ 1 ≤ e.2.1 ∧ e.2.2 = e.1 + e.2.1 ∧
      chainOK e.2.2 tr


theorem replaceObject_length (s X : List Char) (i stop : Nat)
    (hi : i ≤ s.length) :
    (replaceObject s ⟨i, stop, X⟩).length =
      i + X.length + (s.length - stop) := by
  unfold replaceObject
  simp only [List.length_append, List.length_take, List.length_drop]
  omega

theorem addGroupLoop_chain (typeAt : List Char → Nat → Bool)
    (groupName : List Char) :
    ∀ (n : Nat) (nl : Option (List (List Char))) (s : List Char)
      (pos : Nat) (s2 : List Char) (tr : List (Nat × Nat × Nat)),
      s.length - pos ≤ n →
      addGroupLoop typeAt groupName nl s pos = some (s2, tr) →
      chainOK pos tr := by
  intro n
  induction n with
  | zero =>
    intro nl s pos s2 tr hn h
    rw [addGroupLoop] at h
    have hm : searchFrom typeAt s pos = none := by
      unfold searchFrom
      rw [show s.length - pos = 0 from by omega]
      rfl
    rw [hm] at h
    injection h with h
    injection h with h1 h2
    subst h2
    exact trivial
  | succ n ih =>
    intro nl s pos s2 tr hn h
    rw [addGroupLoop] at h
    split at h
    · injection h with h
      injection h with h1 h2
      subst h2
      exact trivial
    · rename_i i hm
      obtain ⟨_, hpos, hlt⟩ := searchFrom_some hm
      obtain ⟨hL1, hL2, hL3, hL4⟩ := extractObject_obj_length s i hlt
      split at h
      · -- with a name filter
        rename_i nl2
        dsimp only [] at h
        split at h
        · exact Option.noConfusion h
        · rename_i nm hnm
          split at h
          · -- transform branch
            rename_i hmem
            split at h
            · exact Option.noConfusion h
            · rename_i pr s3 tr3 hrec
              injection h with h
              injection h with h1 h2
              subst h2
              have hLen2 : 1 ≤ (modObjProps (extractObject s i).obj
                  [(groupidKey, groupName)]).length :=
                List.length_pos.mpr
                  (modObjProps_single_ne_nil _ groupidKey groupName)
              refine ⟨hpos, hLen2, rfl, ?_⟩
              apply ih _ _ _ _ _ _ hrec
              rw [replaceObject_length s _ (extractObject s i).start
                (extractObject s i).stop (by rw [extractObject_start]; omega)]
              rw [extractObject_start] at *
              omega
          · -- skip branch
            rename_i hmem
            split at h
            · exact Option.noConfusion h
            · rename_i pr s3 tr3 hrec
              injection h with h
              injection h with h1 h2
              subst h2
              refine ⟨hpos, hL2, rfl, ?_⟩
              apply ih _ _ _ _ _ _ hrec
              omega
      · -- no name filter
        dsimp only [] at h
        split at h
        · exact Option.noConfusion h
        · rename_i pr s3 tr3 hrec
          injection h with h
          injection h with h1 h2
          subst h2
          have hLen2 : 1 ≤ (modObjProps (extractObject s i).obj
              [(groupidKey, groupName)]).length :=
            List.length_pos.mpr
              (modObjProps_single_ne_nil _ groupidKey groupName)
          refine ⟨hpos, hLen2, rfl, ?_⟩
          apply ih _ _ _ _ _ _ hrec
          rw [replaceObject_length s _ (extractObject s i).start
            (extractObject s i).stop (by rw [extractObject_start]; omega)]
          rw [extractObject_start] at *
          omega

theorem addGroupLoop_done (typeAt : List Char → Nat → Bool)
    (g : List Char) (nl : Option (List (List Char))) (s : List Char)
    (pos : Nat) (hm : searchFrom typeAt s pos = none) :
    addGroupLoop typeAt g nl s pos = some (s, []) := by
  rw [addGroupLoop, hm]

theorem addGroupLoop_step_nofilter (typeAt : List Char → Nat → Bool)
    (g s : List Char) (pos i : Nat) (obj2 s2 : List Char) (pos2 : Nat)
    (hm : searchFrom typeAt s pos = some i)
    (hobj : modObjProps (extractObject s i).obj [(groupidKey, g)] = obj2)
    (hs2 : replaceObject s ⟨(extractObject s i).start,
      (extractObject s i).stop, obj2⟩ = s2)
    (hpos : i + obj2.length = pos2) :
    addGroupLoop typeAt g none s pos =
      (match addGroupLoop typeAt g none s2 pos2 with
        | none => none
        | some (s3, tr) => some (s3, (i, obj2.length, pos2) :: tr)) := by
  rw [addGroupLoop, hm]
  dsimp only []
  rw [hobj, hs2, hpos]

theorem addGroupLoop_step_mem (typeAt : List Char → Nat → Bool)
    (g s : List Char) (pos i : Nat) (nl : List (List Char))
    (nm : PropMatch) (obj2 s2 : List Char) (pos2 : Nat)
    (nl2 : List (List Char))
    (hm : searchFrom typeAt s pos = some i)
    (hnm : extractProp (extractObject s i).obj (['n', 'a', 'm', 'e']) =
      some nm)
    (hmem : nm.prop ∈ nl)
    (hobj : modObjProps (extractObject s i).obj [(groupidKey, g)] = obj2)
    (hs2 : replaceObject s ⟨(extractObject s i).start,
      (extractObject s i).stop, obj2⟩ = s2)
    (hpos : i + obj2.length = pos2)
    (hnl : nl.erase nm.prop = nl2) :
    addGroupLoop typeAt g (some nl) s pos =
      (match addGroupLoop typeAt g (some nl2) s2 pos2 with
        | none => none
        | some (s3, tr) => some (s3, (i, obj2.length, pos2) :: tr)) := by
  rw [addGroupLoop, hm]
  dsimp only []
  rw [hnm]
  dsimp only []
  rw [if_pos hmem, hobj, hs2, hpos, hnl]

theorem addGroupLoop_step_skip (typeAt : List Char → Nat → Bool)
    (g s : List Char) (pos i : Nat) (nl : List (List Char))
    (nm : PropMatch) (len pos2 : Nat)
    (hm : searchFrom typeAt s pos = some i)
    (hnm : extractProp (extractObject s i).obj (['n', 'a', 'm', 'e']) =
      some nm)
    (hmem : nm.prop ∉ nl)
    (hlen : (extractObject s i).obj.length = len)
    (hpos : i + len = pos2) :
    addGroupLoop typeAt g (some nl) s pos =
      (match addGroupLoop typeAt g (some nl) s pos2 with
        | none => none
        | some (s3, tr) => some (s3, (i, len, pos2) :: tr)) := by
  rw [addGroupLoop, hm]
  dsimp only []
  rw [hnm]
  dsimp only []
  rw [if_neg hmem, hlen, hpos]

/-- Number of occurrences of a pattern in a text (number of start offsets
at which the pattern appears). -/
def countOcc (s pat : List Char) : Nat :=
  (List.range s.length).countP (fun i => listAt s pat i)

/-- A three-house test document (exactly 3 objects of the `house` type). -/
def model3 : List Char :=
  ("object house \x7bname h1;\x7d\nobject house \x7bname h2;\x7d\nobject house \x7bname h3;\x7d\n").toList

/-- The type matcher for `object house` (word boundary plus literal, the
shape of the compiled type pattern). -/
def houseAt (s : List Char) (i : Nat) : Bool :=
  boundaryAt s i && listAt s (("object house").toList) i

/-- House object `k` after the transform appended `groupid grp;`. -/
def houseG1 : List Char :=
  ("object house \x7bname h1;  groupid grp;\n\x7d").toList

def houseG2 : List Char :=
  ("object house \x7bname h2;  groupid grp;\n\x7d").toList

def houseG3 : List Char :=
  ("object house \x7bname h3;  groupid grp;\n\x7d").toList

/-- `model3` after the first house is tagged. -/
def model3M1 : List Char :=
  houseG1 ++ ("\nobject house \x7bname h2;\x7d\nobject house \x7bname h3;\x7d\n").toList

/-- `model3` after the first two houses are tagged. -/
def model3M2 : List Char :=
  houseG1 ++ ('\n' :: houseG2) ++ ("\nobject house \x7bname h3;\x7d\n").toList

/-- `model3` after all three houses are tagged. -/
def model3groups : List Char :=
  houseG1 ++ ('\n' :: houseG2) ++ ('\n' :: houseG3) ++ ['\n']

/-- `model3` after a run filtered to names `h1` and `h3`: the middle house
is left untouched. -/
def model3filtered : List Char :=
  houseG1 ++ ("\nobject house \x7bname h2;\x7d\n").toList ++ houseG3 ++ ['\n']

/-- C8: the iterate-and-mutate loop of `addGroupToObjects` always produces
a trace in which every visited match starts at or after the current search
position and the next search position is exactly
(match start) + (length of the text the iteration used: the new object
text after a transform, the original object text after a name-filter
skip); on the three-house document the unfiltered run tags each of the 3
houses exactly once with cursor stops 38, 77, 116 (each = match start +
new text length, so the synthesized `groupid` text is never re-matched),
and a run filtered to names `h1`,`h3` skips the middle house, advancing by
the original 23-character object. -/
theorem claim_C8 :
    (∀ (typeAt : List Char → Nat → Bool) (groupName : List Char)
        (nl : Option (List (List Char))) (model s2 : List Char)
        (tr : List (Nat × Nat × Nat)),
        addGroupToObjects typeAt groupName nl model = some (s2, tr) →
        chainOK 0 tr)
    ∧ addGroupToObjects houseAt (("grp").toList) none model3 =
        some (model3groups, [(0, 38, 38), (39, 38, 77), (78, 38, 116)])
    ∧ countOcc model3 (("object house").toList) = 3
    ∧ countOcc model3groups (("object house").toList) = 3
    ∧ countOcc model3groups (("groupid grp;").toList) = 3
    ∧ addGroupToObjects houseAt (("grp").toList)
        (some [("h1").toList, ("h3").toList]) model3 =
        some (model3filtered, [(0, 38, 38), (39, 23, 62), (63, 38, 101)])
    ∧ countOcc model3filtered (("groupid grp;").toList) = 2 := by
  refine ⟨?_, ?_, by decide, by decide, by decide, ?_, by decide⟩
  · intro typeAt groupName nl model s2 tr h
    exact addGroupLoop_chain typeAt groupName model.length nl model 0 s2 tr
      (by omega) h
  · rw [addGroupToObjects]
    rw [addGroupLoop_step_nofilter houseAt (("grp").toList) model3 0 0
      houseG1 model3M1 38 (by decide) (by decide) (by decide) (by decide)]
    rw [addGroupLoop_step_nofilter houseAt (("grp").toList) model3M1 38 39
      houseG2 model3M2 77 (by decide) (by decide) (by decide) (by decide)]
    rw [addGroupLoop_step_nofilter houseAt (("grp").toList) model3M2 77 78
      houseG3 model3groups 116 (by decide) (by decide) (by decide)
      (by decide)]
    rw [addGroupLoop_done houseAt (("grp").toList) none model3groups 116
      (by decide)]
    decide
  · rw [addGroupToObjects]
    rw [addGroupLoop_step_mem houseAt (("grp").toList) model3 0 0
      [("h1").toList, ("h3").toList] ⟨("h1").toList, 18, 21⟩ houseG1
      model3M1 38 [("h3").toList] (by decide) (by decide) (by decide)
      (by decide) (by decide) (by decide) (by decide)]
    rw [addGroupLoop_step_skip houseAt (("grp").toList) model3M1 38 39
      [("h3").toList] ⟨("h2").toList, 18, 21⟩ 23 62 (by decide)
      (by decide) (by decide) (by decide) (by decide)]
    rw [addGroupLoop_step_mem houseAt (("grp").toList) model3M1 62 63
      [("h3").toList] ⟨("h3").toList, 18, 21⟩ houseG3 model3filtered 101
      ([] : List (List Char)) (by decide) (by decide) (by decide)
      (by decide) (by decide) (by decide) (by decide)]
    rw [addGroupLoop_done houseAt (("grp").toList)
      (some ([] : List (List Char))) model3filtered 101 (by decide)]
    decide

theorem claim_C8_witness :
    chainOK 0 [(0, 38, 38), (39, 38, 77), (78, 38, 116)] :=
  claim_C8.1 houseAt (("grp").toList) none model3 model3groups
    [(0, 38, 38), (39, 38, 77), (78, 38, 116)] claim_C8.2.1

/-! ### Claim C9: the singleton-block helpers `updateClock` and
`updatePowerflow` (lines 192-291) -/

/-- Python truthiness of a string argument (`if starttime:` …): `None`
and the empty string are falsy and skip the property. -/
def truthy (l : List Char) : Bool := !l.isEmpty

/-- `CLOCK_REGEX = \bclock\b(\s*)(?={)` (line 25) matches at `i` iff the
word `clock` sits at `i` with word boundaries and the first
non-whitespace character after it is `{` (the greedy `\s*` backtracks
only to the end of the maximal whitespace run, since `{` is not
whitespace). -/
def clockMatchAt (s : List Char) (i : Nat) : Bool :=
  boundaryAt s i && listAt s (("clock").toList) i &&
    boundaryAt s (i + 5) &&
    decide (s[i + 5 + countSpaces (s.drop (i + 5))]? = some '{')

/-- `POWERFLOW_REGEX = \bmodule\b(\s+)\bpowerflow\b` (line 35) matches at
`i` iff the word `module` sits at `i`, a nonempty whitespace run follows,
and the word `powerflow` follows the run (the greedy `\s+` backtracks
only to the full run, since `p` is not whitespace). -/
def powerflowMatchAt (s : List Char) (i : Nat) : Bool :=
  boundaryAt s i && listAt s (("module").toList) i &&
    boundaryAt s (i + 6) &&
    decide (1 ≤ countSpaces (s.drop (i + 6))) &&
    boundaryAt s (i + 6 + countSpaces (s.drop (i + 6))) &&
    listAt s (("powerflow").toList) (i + 6 + countSpaces (s.drop (i + 6))) &&
    boundaryAt s (i + 6 + countSpaces (s.drop (i + 6)) + 9)

/-- The property dictionary built by `updateClock`'s block-exists branch
(lines 212-220), in insertion order; `starttime` and `stoptime` values
are wrapped in single quotes by `"\x27\x7b\x7d\x27".format(...)`. -/
def clockPropDict (starttime stoptime timezone : List Char) :
    List (List Char × List Char) :=
  (if truthy starttime then
    [(("starttime").toList, '\x27' :: (starttime ++ ['\x27']))] else []) ++
  (if truthy stoptime then
    [(("stoptime").toList, '\x27' :: (stoptime ++ ['\x27']))] else []) ++
  (if truthy timezone then [(("timezone").toList, timezone)] else [])

/-- `modGLM.updateClock` (lines 192-247): if `CLOCK_REGEX` matches
(leftmost match), extract the clock object there, rewrite the given
properties and splice the result back; otherwise build a fresh block
(property order `timezone`, `starttime`, `stoptime` here) and prepend it
to the model. -/
def updateClock (s starttime stoptime timezone : List Char) : List Char :=
  match findFirstIdx (fun j => clockMatchAt s j) 0 s.length with
  | some i =>
    let clock := extractObject s i
    replaceObject s ⟨clock.start, clock.stop,
      modObjProps clock.obj (clockPropDict starttime stoptime timezone)⟩
  | none =>
    ("clock \x7b\n").toList ++
    (if truthy timezone then
      ("  timezone ").toList ++ timezone ++ (";\n").toList else []) ++
    (if truthy starttime then
      ("  starttime \x27").toList ++ starttime ++ ("\x27;\n").toList
     else []) ++
    (if truthy stoptime then
      ("  stoptime \x27").toList ++ stoptime ++ ("\x27;\n").toList
     else []) ++
    ("\x7d\n").toList ++ s

/-- The property dictionary built by `updatePowerflow`'s block-exists
branch (lines 265-268): `solver_method` and `line_capacitance`
unconditionally, `lu_solver` only when truthy. -/
def pfPropDict (solver_method line_capacitance lu_solver : List Char) :
    List (List Char × List Char) :=
  [(("solver_method").toList, solver_method),
   (("line_capacitance").toList, line_capacitance)] ++
  (if truthy lu_solver then [(("lu_solver").toList, lu_solver)] else [])

/-- `modGLM.updatePowerflow` (lines 249-291): if `POWERFLOW_REGEX`
matches (leftmost match), extract the module block there, rewrite the
properties and splice the result back; otherwise build a fresh
`module powerflow` block and prepend it to the model. -/
def updatePowerflow (s solver_method line_capacitance lu_solver :
    List Char) : List Char :=
  match findFirstIdx (fun j => powerflowMatchAt s j) 0 s.length with
  | some i =>
    let pf := extractObject s i
    replaceObject s ⟨pf.start, pf.stop,
      modObjProps pf.obj
        (pfPropDict solver_method line_capacitance lu_solver)⟩
  | none =>
    ("module powerflow \x7b\n  solver_method ").toList ++ solver_method ++
    (";\n  line_capacitance ").toList ++ line_capacitance ++
    (";\n").toList ++
    (if truthy lu_solver then
      ("  lu_solver ").toList ++ lu_solver ++ (";\n").toList else []) ++
    ("\x7d;\n").toList ++ s

/-! #### Support lemmas for claim C9 -/

theorem countSpaces_elem_space (l : List Char) :
    ∀ j, j < countSpaces l →
      ∃ c, l[j]? = some c ∧ isSpaceChar c = true := by
  induction l with
  | nil => intro j hj; simp [countSpaces] at hj
  | cons c cs ih =>
    intro j hj
    simp only [countSpaces] at hj
    by_cases hc : isSpaceChar c = true
    · rw [if_pos hc] at hj
      cases j with
      | zero => exact ⟨c, by simp, hc⟩
      | succ j2 =>
        obtain ⟨c2, h1, h2⟩ := ih j2 (by omega)
        exact ⟨c2, by simpa using h1, h2⟩
    · rw [if_neg hc] at hj
      omega

theorem countSpaces_stop_nonspace (l : List Char) :
    ∀ c, l[countSpaces l]? = some c → isSpaceChar c = false := by
  induction l with
  | nil => intro c h; simp at h
  | cons c0 cs ih =>
    intro c h
    simp only [countSpaces] at h
    by_cases hc : isSpaceChar c0 = true
    · rw [if_pos hc] at h
      exact ih c (by simpa using h)
    · rw [if_neg hc] at h
      simp at h
      rw [← h]
      simpa using hc

theorem countSpaces_eq_of (l : List Char) (K : Nat)
    (h1 : ∀ j, j < K → ∃ c, l[j]? = some c ∧ isSpaceChar c = true)
    (h2 : ∀ c, l[K]? = some c → isSpaceChar c = false) :
    countSpaces l = K := by
  induction l generalizing K with
  | nil =>
    cases K with
    | zero => simp [countSpaces]
    | succ K2 =>
      obtain ⟨c, hc, _⟩ := h1 0 (by omega)
      simp at hc
  | cons c0 cs ih =>
    cases K with
    | zero =>
      have := h2 c0 (by simp)
      simp only [countSpaces]
      rw [if_neg (by rw [this]; simp)]
    | succ K2 =>
      obtain ⟨c, hc, hsp⟩ := h1 0 (by omega)
      simp only [List.getElem?_cons_zero] at hc
      injection hc with hc
      subst hc
      simp only [countSpaces, if_pos hsp]
      have := ih K2 (fun j hj => by simpa using h1 (j + 1) (by omega))
        (fun c2 hc2 => h2 c2 (by simpa using hc2))
      omega

theorem countSpaces_eq_of_take_eq (s1 s2 : List Char) (n i : Nat)
    (h : s1.take n = s2.take n)
    (hK : i + countSpaces (s1.drop i) < n) :
    countSpaces (s2.drop i) = countSpaces (s1.drop i) := by
  apply countSpaces_eq_of
  · intro j hj
    obtain ⟨c, hc, hsp⟩ := countSpaces_elem_space (s1.drop i) j hj
    refine ⟨c, ?_, hsp⟩
    rw [List.getElem?_drop] at hc ⊢
    rw [← getElem?_eq_of_take_eq s1 s2 n (i + j) h (by omega)]
    exact hc
  · intro c hc
    apply countSpaces_stop_nonspace (s1.drop i)
    rw [List.getElem?_drop] at hc ⊢
    rw [getElem?_eq_of_take_eq s1 s2 n (i + countSpaces (s1.drop i)) h
      (by omega)]
    exact hc

theorem countSpaces_le_of_nonspace (s : List Char) (m i : Nat) (c : Char)
    (hm : m ≤ i) (hc : s[i]? = some c) (hsp : isSpaceChar c = false) :
    countSpaces (s.drop m) ≤ i - m := by
  by_contra hx
  obtain ⟨c2, hc2, hsp2⟩ :=
    countSpaces_elem_space (s.drop m) (i - m) (by omega)
  rw [List.getElem?_drop, show m + (i - m) = i from by omega, hc] at hc2
  injection hc2 with hc2
  subst hc2
  rw [hsp2] at hsp
  cases hsp

theorem scanLen_ge (bc : Int) (l : List Char) (m : Nat)
    (hm : m ≤ l.length) (h : ∀ j, j < m → l[j]? ≠ some '}') :
    m ≤ scanLen bc l := by
  induction l generalizing bc m with
  | nil => simp at hm; omega
  | cons c cs ih =>
    cases m with
    | zero => omega
    | succ m2 =>
      have hc : c ≠ '}' := by
        intro habs
        exact h 0 (by omega) (by rw [habs]; simp)
      simp only [scanLen]
      rw [if_neg (by intro habs; exact hc habs.1)]
      have := ih (bc + braceDelta c) m2 (by simpa using hm)
        (fun j hj => by
          have := h (j + 1) (by omega)
          simpa using this)
      omega

theorem scanBreaks_stop (bc : Int) (l : List Char)
    (h : scanBreaks bc l = true) :
    ∃ m, scanLen bc l = m + 1 ∧ l[m]? = some '}' := by
  induction l generalizing bc with
  | nil => simp [scanBreaks] at h
  | cons c cs ih =>
    simp only [scanBreaks] at h
    by_cases hb : c = '}' ∧ bc + braceDelta c = 0
    · refine ⟨0, ?_, ?_⟩
      · simp only [scanLen, if_pos hb]
      · rw [hb.1]; simp
    · rw [if_neg hb] at h
      obtain ⟨m, hm1, hm2⟩ := ih (bc + braceDelta c) h
      refine ⟨m + 1, ?_, by simpa using hm2⟩
      simp only [scanLen]
      rw [if_neg hb]
      omega

theorem clockMatchAt_eq_of_take_eq (s1 s2 : List Char) (n i : Nat)
    (h : s1.take n = s2.take n)
    (hi : i + 5 + countSpaces (s1.drop (i + 5)) < n) :
    clockMatchAt s2 i = clockMatchAt s1 i := by
  have hcs := countSpaces_eq_of_take_eq s1 s2 n (i + 5) h (by omega)
  have hlen5 : (("clock").toList).length = 5 := by decide
  unfold clockMatchAt
  rw [boundaryAt_eq_of_take_eq s1 s2 n i h (by omega),
    listAt_eq_of_take_eq s1 s2 (("clock").toList) n i h (by omega),
    boundaryAt_eq_of_take_eq s1 s2 n (i + 5) h (by omega), hcs,
    getElem?_eq_of_take_eq s1 s2 n (i + 5 + countSpaces (s1.drop (i + 5)))
      h (by omega)]

theorem clockMatch_lookahead_lt (s : List Char) (i j : Nat) (hj : j < i)
    (hlit : (s.drop i).take 5 = ("clock").toList) :
    j + 5 + countSpaces (s.drop (j + 5)) < i + 5 := by
  have hchar : ∀ d, d < 5 →
      ∃ c, s[i + d]? = some c ∧ isSpaceChar c = false := by
    intro d hd
    have h1 : ((s.drop i).take 5)[d]? = (s.drop i)[d]? := by
      rw [List.getElem?_take]
      exact if_pos hd
    rw [hlit] at h1
    cases hsome : (("clock").toList)[d]? with
    | none =>
      have hlt : d < (("clock").toList).length := by
        have : (("clock").toList).length = 5 := by decide
        omega
      rw [List.getElem?_eq_getElem hlt] at hsome
      cases hsome
    | some c =>
      have h2 : (s.drop i)[d]? = some c := by rw [← h1, hsome]
      rw [List.getElem?_drop] at h2
      refine ⟨c, h2, ?_⟩
      have hall : ∀ c2 ∈ (("clock").toList), isSpaceChar c2 = false := by
        decide
      exact hall c (List.getElem?_mem hsome)
  by_cases hcase : j + 5 ≤ i
  · obtain ⟨c, hc, hsp⟩ := hchar 0 (by omega)
    simp only [Nat.add_zero] at hc
    have := countSpaces_le_of_nonspace s (j + 5) i c hcase hc hsp
    omega
  · obtain ⟨c, hc, hsp⟩ := hchar (j + 5 - i) (by omega)
    rw [show i + (j + 5 - i) = j + 5 from by omega] at hc
    have := countSpaces_le_of_nonspace s (j + 5) (j + 5) c le_rfl hc hsp
    omega

/-- `modObjProps` never touches a prefix of the object text that contains
no key's first character: both the replace branch (whose match must start
with the key's first character, hence after the prefix) and the append
branch (which edits only around the final character) keep the prefix, and
keep the remainder nonempty. -/
theorem modObjProps_prefix (P : List Char) :
    ∀ (props : List (List Char × List Char)) (R : List Char), R ≠ [] →
      (∀ pv ∈ props, ∃ c cs, pv.1 = c :: cs ∧ c ∉ P) →
      ∃ R2, R2 ≠ [] ∧ modObjProps (P ++ R) props = P ++ R2 := by
  intro props
  induction props with
  | nil => exact fun R hR _ => ⟨R, hR, rfl⟩
  | cons pv rest ih =>
    intro R hR hkeys
    obtain ⟨c, cs, hp, hc⟩ := hkeys pv (by simp)
    obtain ⟨p, v⟩ := pv
    simp only at hp
    subst hp
    cases hext : extractProp (P ++ R) (c :: cs) with
    | none =>
      have hRlen : 1 ≤ R.length := by
        cases R with
        | nil => exact absurd rfl hR
        | cons a b => simp
      have hdrop : (P ++ R).dropLast = P ++ R.dropLast := by
        rw [List.dropLast_eq_take, List.dropLast_eq_take,
          List.length_append,
          show P.length + R.length - 1 = P.length + (R.length - 1) from
            by omega, List.take_append]
      have hstep : modObjProps (P ++ R) ((c :: cs, v) :: rest) =
          modObjProps (P ++ (R.dropLast ++ (' ' :: ' ' :: (c :: cs)) ++
            (' ' :: v) ++ (';' :: '\n' :: []) ++ lastChar (P ++ R)))
            rest := by
        rw [modObjProps, hext]
        rw [hdrop]
        simp only [List.append_assoc]
      obtain ⟨R2, hR2, hrec⟩ := ih
        (R.dropLast ++ (' ' :: ' ' :: (c :: cs)) ++ (' ' :: v) ++
          (';' :: '\n' :: []) ++ lastChar (P ++ R))
        (by
          intro habs
          have hlen := congrArg List.length habs
          simp only [List.length_append, List.length_cons,
            List.length_nil] at hlen
          omega)
        (fun pv2 hpv2 => hkeys pv2 (by simp [hpv2]))
      exact ⟨R2, hR2, by rw [hstep, hrec]⟩
    | some pm =>
      obtain ⟨hsp1, hsp2, _, _, _, _, _, _⟩ :=
        extractProp_some_spec (P ++ R) (c :: cs) pm hext
      obtain ⟨_, hlt1, _, _, _⟩ :=
        extractProp_structure (P ++ R) (c :: cs) pm hext
      have hhead : (P ++ R)[pm.start - (c :: cs).length]? = some c := by
        have := listAt_getElem (P ++ R) (c :: cs)
          (pm.start - (c :: cs).length) 0 hsp2 (by simp)
        simpa using this
      have hge : P.length ≤ pm.start - (c :: cs).length := by
        by_contra hx
        rw [getElem?_append_left' P R _ (by omega)] at hhead
        exact hc (List.getElem?_mem hhead)
      have hstart : P.length + 1 ≤ pm.start := by
        have hcl : (c :: cs).length = cs.length + 1 := by simp
        omega
      have htk : (P ++ R).take pm.start =
          P ++ R.take (pm.start - P.length) := by
        rw [show pm.start = P.length + (pm.start - P.length) from
          by omega, List.take_append]
        congr 2
        omega
      have hdr : (P ++ R).drop pm.stop = R.drop (pm.stop - P.length) := by
        rw [show pm.stop = P.length + (pm.stop - P.length) from
          by omega, List.drop_append]
        congr 1
        omega
      have hstep : modObjProps (P ++ R) ((c :: cs, v) :: rest) =
          modObjProps (P ++ (R.take (pm.start - P.length) ++ (' ' :: v) ++
            R.drop (pm.stop - P.length))) rest := by
        rw [modObjProps, hext]
        dsimp only []
        rw [htk, hdr]
        simp only [List.append_assoc]
      obtain ⟨R2, hR2, hrec⟩ := ih
        (R.take (pm.start - P.length) ++ (' ' :: v) ++
          R.drop (pm.stop - P.length))
        (by
          intro habs
          have hlen := congrArg List.length habs
          simp only [List.length_append, List.length_cons,
            List.length_nil] at hlen
          omega)
        (fun pv2 hpv2 => hkeys pv2 (by simp [hpv2]))
      exact ⟨R2, hR2, by rw [hstep, hrec]⟩

/-- Core of the present→present placement argument for `updateClock`: a
leftmost clock match at `i` whose extraction scan terminates at a brace
yields a rewrite-in-place, and the rewritten document still has its
leftmost clock match at `i`. -/
theorem clock_present_core (s st sp tz : List Char) (i : Nat)
    (h : findFirstIdx (fun j => clockMatchAt s j) 0 s.length = some i)
    (hbr : scanBreaks 0 (s.drop i) = true) :
    updateClock s st sp tz =
      s.take i ++
        modObjProps (extractObject s i).obj (clockPropDict st sp tz) ++
        s.drop ((extractObject s i).stop) ∧
    findFirstIdx
        (fun j => clockMatchAt (updateClock s st sp tz) j) 0
        (updateClock s st sp tz).length = some i := by
  obtain ⟨hq, hi0, hiub, hleast⟩ := findFirstIdx_some h
  have hieq : updateClock s st sp tz =
      s.take i ++
        modObjProps (extractObject s i).obj (clockPropDict st sp tz) ++
        s.drop ((extractObject s i).stop) := by
    unfold updateClock
    rw [h]
    simp only [replaceObject, extractObject_start]
  refine ⟨hieq, ?_⟩
  have hq2 := hq
  simp only [clockMatchAt, Bool.and_eq_true, decide_eq_true_eq] at hq2
  obtain ⟨⟨⟨hb1, hb2⟩, hb3⟩, hb4⟩ := hq2
  set K := countSpaces (s.drop (i + 5)) with hKdef
  have hlt : i + 5 + K < s.length := lt_length_of_getElem? s _ '{' hb4
  have hlitfull : (s.drop i).take ((("clock").toList).length) =
      ("clock").toList := by
    unfold listAt at hb2
    exact of_decide_eq_true hb2
  have hlit : (s.drop i).take 5 = ("clock").toList := by
    have h5 : (("clock").toList).length = 5 := by decide
    rw [← h5]
    exact hlitfull
  have hlen_drop : (s.drop i).length = s.length - i := by simp
  have hnob : ∀ j, j < 5 + K + 1 → (s.drop i)[j]? ≠ some '}' := by
    intro j hj habs
    rcases Nat.lt_or_ge j 5 with hj5 | hj5
    · have h1 : ((s.drop i).take 5)[j]? = (s.drop i)[j]? := by
        rw [List.getElem?_take]
        exact if_pos hj5
      rw [hlit, habs] at h1
      exact absurd (List.getElem?_mem h1) (by decide)
    · rcases Nat.lt_or_ge j (5 + K) with hjK | hjK
      · obtain ⟨c, hc, hsp⟩ :=
          countSpaces_elem_space (s.drop (i + 5)) (j - 5) (by omega)
        rw [List.getElem?_drop] at hc
        rw [List.getElem?_drop] at habs
        rw [show i + 5 + (j - 5) = i + j from by omega, habs] at hc
        injection hc with hc
        rw [← hc] at hsp
        exact absurd hsp (by decide)
      · have hjeq : j = 5 + K := by omega
        subst hjeq
        rw [List.getElem?_drop,
          show i + (5 + K) = i + 5 + K from by omega, hb4] at habs
        simp at habs
  have hscan1 : 5 + K + 1 ≤ scanLen 0 (s.drop i) :=
    scanLen_ge 0 (s.drop i) (5 + K + 1) (by rw [hlen_drop]; omega) hnob
  obtain ⟨m, hm1, hm2⟩ := scanBreaks_stop 0 (s.drop i) hbr
  have hscan2 : 5 + K + 2 ≤ scanLen 0 (s.drop i) := by
    rcases Nat.lt_or_ge (5 + K + 1) (m + 1) with hx | hx
    · omega
    · have hmeq : m = 5 + K := by omega
      subst hmeq
      rw [List.getElem?_drop,
        show i + (5 + K) = i + 5 + K from by omega, hb4] at hm2
      simp at hm2
  set L := scanLen 0 (s.drop i) with hLdef
  have hobj : (extractObject s i).obj = (s.drop i).take L :=
    extractObject_obj s i
  have hLle : L ≤ s.length - i := by
    have := scanLen_le_length (s.drop i) 0
    rw [hlen_drop] at this
    exact this
  set P := (s.drop i).take (5 + K + 1) with hPdef
  have hPlen : P.length = 5 + K + 1 := by
    rw [hPdef, List.length_take, hlen_drop]
    omega
  set R := ((s.drop i).take L).drop (5 + K + 1) with hRdef
  have hsplit : (extractObject s i).obj = P ++ R := by
    rw [hobj, hPdef, hRdef]
    have htt : ((s.drop i).take L).take (5 + K + 1) =
        (s.drop i).take (5 + K + 1) := by
      rw [List.take_take]
      congr 1
      omega
    conv_lhs => rw [← List.take_append_drop (5 + K + 1) ((s.drop i).take L)]
    rw [htt]
  have hRlen : R.length = L - (5 + K + 1) := by
    rw [hRdef, List.length_drop, List.length_take, hlen_drop]
    omega
  have hRne : R ≠ [] := by
    intro habs
    rw [habs] at hRlen
    simp at hRlen
    omega
  have hPmem : ∀ c ∈ P,
      c ∈ ("clock").toList ∨ isSpaceChar c = true ∨ c = '{' := by
    intro c hcP
    obtain ⟨d, hd, hcd⟩ := List.getElem_of_mem hcP
    have hd2 : d < 5 + K + 1 := by rw [← hPlen]; exact hd
    have hcq : P[d]? = some c := by rw [List.getElem?_eq_getElem hd, hcd]
    rw [hPdef, List.getElem?_take, if_pos hd2] at hcq
    rcases Nat.lt_or_ge d 5 with hd5 | hd5
    · left
      have h1 : ((s.drop i).take 5)[d]? = (s.drop i)[d]? := by
        rw [List.getElem?_take]
        exact if_pos hd5
      rw [hlit, hcq] at h1
      exact List.getElem?_mem h1
    · rcases Nat.lt_or_ge d (5 + K) with hdK | hdK
      · right; left
        obtain ⟨c2, hc2, hsp2⟩ :=
          countSpaces_elem_space (s.drop (i + 5)) (d - 5) (by omega)
        rw [List.getElem?_drop] at hc2
        rw [List.getElem?_drop] at hcq
        rw [show i + 5 + (d - 5) = i + d from by omega, hcq] at hc2
        injection hc2 with hc2
        rw [hc2]
        exact hsp2
      · right; right
        have hdeq : d = 5 + K := by omega
        subst hdeq
        rw [List.getElem?_drop,
          show i + (5 + K) = i + 5 + K from by omega, hb4] at hcq
        injection hcq with hcq
        exact hcq.symm
  have hsP : 's' ∉ P ∧ 't' ∉ P := by
    constructor <;>
      (intro hmem; rcases hPmem _ hmem with h1 | h1 | h1 <;>
        exact absurd h1 (by decide))
  have hkeys : ∀ pv ∈ clockPropDict st sp tz,
      ∃ c cs, pv.1 = c :: cs ∧ c ∉ P := by
    intro pv hpv
    unfold clockPropDict at hpv
    rcases List.mem_append.mp hpv with hpv1 | hpv1
    · rcases List.mem_append.mp hpv1 with hpv2 | hpv2
      · split at hpv2
        · simp at hpv2
          have hA : (("starttime").toList : List Char) =
              's' :: ("tarttime").toList := by decide
          exact ⟨'s', ("tarttime").toList, by rw [hpv2]; exact hA, hsP.1⟩
        · simp at hpv2
      · split at hpv2
        · simp at hpv2
          have hA : (("stoptime").toList : List Char) =
              's' :: ("toptime").toList := by decide
          exact ⟨'s', ("toptime").toList, by rw [hpv2]; exact hA, hsP.1⟩
        · simp at hpv2
    · split at hpv1
      · simp at hpv1
        have hA : (("timezone").toList : List Char) =
            't' :: ("imezone").toList := by decide
        exact ⟨'t', ("imezone").toList, by rw [hpv1]; exact hA, hsP.2⟩
      · simp at hpv1
  obtain ⟨R2, hR2ne, hmod⟩ :=
    modObjProps_prefix P (clockPropDict st sp tz) R hRne hkeys
  have hmod2 : modObjProps (extractObject s i).obj
      (clockPropDict st sp tz) = P ++ R2 := by
    rw [hsplit]
    exact hmod
  have hs2 : updateClock s st sp tz = s.take i ++ (P ++ R2) ++
      s.drop ((extractObject s i).stop) := by
    rw [hieq, hmod2]
  have htake_i : (s.take i).length = i := by
    rw [List.length_take]
    omega
  have htk : (updateClock s st sp tz).take (i + (5 + K + 1)) =
      s.take (i + (5 + K + 1)) := by
    rw [hs2, List.append_assoc]
    rw [show i + (5 + K + 1) = (s.take i).length + (5 + K + 1) from
      by rw [htake_i]]
    rw [List.take_append, List.append_assoc, List.take_left' hPlen,
      htake_i, List.take_add, ← hPdef]
  have htrans : ∀ j, j ≤ i →
      clockMatchAt (updateClock s st sp tz) j = clockMatchAt s j := by
    intro j hj
    rcases Nat.eq_or_lt_of_le hj with hje | hjl
    · subst hje
      exact clockMatchAt_eq_of_take_eq s (updateClock s st sp tz)
        (j + (5 + K + 1)) j htk.symm (by rw [← hKdef]; omega)
    · have hbound := clockMatch_lookahead_lt s i j hjl hlit
      exact clockMatchAt_eq_of_take_eq s (updateClock s st sp tz)
        (i + (5 + K + 1)) j htk.symm (by omega)
  have hs2len : i < (updateClock s st sp tz).length := by
    rw [hs2]
    simp only [List.length_append, htake_i]
    have := hPlen
    omega
  apply findFirstIdx_eq_some_of (updateClock s st sp tz).length 0 i
    (Nat.zero_le i) (by omega) ?_ ?_
  · rw [htrans i le_rfl]
    exact hq
  · intro k hk0 hki
    rw [htrans k (le_of_lt hki)]
    exact hleast k (by omega) hki

/-- Concrete clock/powerflow arguments and documents for C9. -/
def st0 : List Char := ("2017-01-01 00:00:00").toList

def sp0 : List Char := ("2017-01-02 00:00:00").toList

def tz0 : List Char := ("PST+8PDT").toList

def clockAbsentModel : List Char := ("object house \x7bname h1;\x7d\n").toList

def clockPresentModel : List Char :=
  ("clock \x7b\n  starttime \x272000-01-01 0:00:00\x27;\n\x7d\nobject house \x7bname h1;\x7d\n").toList

/-- The block built by the absent branch for `st0`, `sp0`, `tz0`
(`timezone` first, per lines 233-242). -/
def clockBlock0 : List Char :=
  ("clock \x7b\n  timezone PST+8PDT;\n  starttime \x272017-01-01 00:00:00\x27;\n  stoptime \x272017-01-02 00:00:00\x27;\n\x7d\n").toList

def sm0 : List Char := ("NR").toList

def lc0 : List Char := ("TRUE").toList

def lu0 : List Char := ("\"KLU\"").toList

def pfAbsentModel : List Char := ("object node \x7bname n1;\x7d\n").toList

def pfPresentModel : List Char :=
  ("module powerflow \x7b\n  solver_method FBS;\n\x7d;\nobject node \x7bname n1;\x7d\n").toList

set_option maxRecDepth 16000 in
/-- C9 (amended): a second `updateClock` with identical arguments takes
the block-exists path at the same offset — on any document whose leftmost
clock match sits at `i` with a brace-terminated extraction scan, one call
rewrites the block in place and the rewritten document's leftmost clock
match is still at `i`; on concrete documents (clock absent and present,
powerflow absent and present) the second identical call reproduces the
first call's output exactly, and the absent branch prepends the fresh
block.  General idempotence of the helpers fails for argument values
containing `;` (see the counterexample). -/
theorem claim_C9 :
    (∀ (s st sp tz : List Char) (i : Nat),
      findFirstIdx (fun j => clockMatchAt s j) 0 s.length = some i →
      scanBreaks 0 (s.drop i) = true →
      updateClock s st sp tz =
        s.take i ++
          modObjProps (extractObject s i).obj (clockPropDict st sp tz) ++
          s.drop ((extractObject s i).stop) ∧
      findFirstIdx
          (fun j => clockMatchAt (updateClock s st sp tz) j) 0
          (updateClock s st sp tz).length = some i)
    ∧ updateClock clockAbsentModel st0 sp0 tz0 =
        clockBlock0 ++ clockAbsentModel
    ∧ updateClock (updateClock clockAbsentModel st0 sp0 tz0) st0 sp0 tz0 =
        updateClock clockAbsentModel st0 sp0 tz0
    ∧ updateClock (updateClock clockPresentModel st0 sp0 tz0) st0 sp0
        tz0 = updateClock clockPresentModel st0 sp0 tz0
    ∧ updatePowerflow (updatePowerflow pfAbsentModel sm0 lc0 lu0) sm0 lc0
        lu0 = updatePowerflow pfAbsentModel sm0 lc0 lu0
    ∧ updatePowerflow (updatePowerflow pfPresentModel sm0 lc0 lu0) sm0
        lc0 lu0 = updatePowerflow pfPresentModel sm0 lc0 lu0 :=
  ⟨clock_present_core, by decide, by decide, by decide, by decide,
    by decide⟩

set_option maxRecDepth 16000 in
theorem claim_C9_witness :
    updateClock clockPresentModel st0 sp0 tz0 =
      clockPresentModel.take 0 ++
        modObjProps (extractObject clockPresentModel 0).obj
          (clockPropDict st0 sp0 tz0) ++
        clockPresentModel.drop ((extractObject clockPresentModel 0).stop) ∧
    findFirstIdx
        (fun j =>
          clockMatchAt (updateClock clockPresentModel st0 sp0 tz0) j) 0
        (updateClock clockPresentModel st0 sp0 tz0).length = some 0 :=
  claim_C9.1 clockPresentModel st0 sp0 tz0 0 (by decide) (by decide)

set_option maxRecDepth 16000 in
/-- The idempotence contract fails as stated: a `starttime` value
containing `;` is written whole, but the second call re-reads it only up
to the first `;` and rewrites that shorter span, duplicating the tail. -/
theorem claim_C9_counterexample :
    updateClock
        (updateClock (("clock \x7bstarttime \x271\x27;\x7d").toList)
          (("a;b").toList) [] [])
        (("a;b").toList) [] [] ≠
      updateClock (("clock \x7bstarttime \x271\x27;\x7d").toList)
        (("a;b").toList) [] [] := by
  decide
